import Mathlib

set_option maxRecDepth 8192

/-!
# Verification of the l5x2ST translator core

This file gives a shallow embedding, in Lean 4, of the parts of the
`l5x_st_compiler` Python package that the verified claims are about:

* `ladder_logic.py` — the LD rung-text to Structured Text translator
  (`format_rung_text`, `process_rung_instructions`,
  `process_instruction_list`, `translate_ladder_to_st` and the
  per-mnemonic instruction functions);
* `utils.py` — the identifier policy (`clean_identifier`,
  `sanitize_identifier`) and the tag-value hex decoding of
  `extract_tag_info`;
* `constants.py` — the `RESERVED_WORDS` table;
* `fbd_translator.py` — the FBD dependency graph and the DFS that fixes
  the execution order of function-block instances;
* `ir_converter.py` — `calculate_fidelity_score`;
* `st2l5x.py` — `_add_basic_data_types` / `_basic_types`.

Python strings are embedded as `List Char`; the Python string
primitives used by the source (`find`, slicing with negative indices,
`replace`, `split`, `strip`, `upper`, `int(_, 16)`, `str.isdigit`) are
reproduced in the `Py` namespace with their CPython semantics on ASCII
input.  The one unbounded `while` loop of the source
(`format_rung_text`) is embedded with explicit fuel and returns
`Option`: `none` models non-termination of the Python loop.
-/

/-- Python strings, embedded as lists of characters. -/
abbrev Str := List Char

/-- Shorthand for embedding a Lean string literal as a `Str`. -/
def S (s : String) : Str := s.data

namespace Py

/-- The characters Python's `str.strip()` / `str.split()` treat as
whitespace (ASCII fragment). -/
def isWs (c : Char) : Bool :=
  c = ' ' || c = '\t' || c = '\n' || c = '\x0d' || c = '\x0b' || c = '\x0c'

/-- Source `s.replace(old, '')` for a single-character `old`. -/
def removeAll (l : Str) (a : Char) : Str := l.filter (fun c => c ≠ a)

/-- Source `s.replace(old, new)` for single-character `old` and `new`. -/
def replaceChar (l : Str) (a b : Char) : Str :=
  l.map (fun c => if c = a then b else c)

/-- Source `s.replace(old, '', 1)`: remove the first occurrence only. -/
def removeFirst : Str → Char → Str
  | [], _ => []
  | c :: rest, a => if c = a then rest else c :: removeFirst rest a

/-- First index of character `c` in `l`, if any. -/
def findIdx : Str → Char → Option Nat
  | [], _ => none
  | c :: rest, a =>
    if c = a then some 0 else (findIdx rest a).map (· + 1)

/-- Python `s.find(c)`: the first index of `c`, or `-1`. -/
def find (l : Str) (c : Char) : Int :=
  match findIdx l c with
  | none => -1
  | some n => (n : Int)

/-- Clamp a Python slice endpoint to an actual position in a string of
length `n`: negative indices count from the end, out-of-range indices
are clamped. -/
def sliceIndex (n : Nat) (i : Int) : Nat :=
  if i < 0 then n - min n (-i).toNat else min i.toNat n

/-- Python `s[i:]`. -/
def sliceFrom (l : Str) (i : Int) : Str := l.drop (sliceIndex l.length i)

/-- Python `s[:i]`. -/
def sliceTo (l : Str) (i : Int) : Str := l.take (sliceIndex l.length i)

/-- Python `s[i:j]`. -/
def slice (l : Str) (i j : Int) : Str :=
  (l.take (sliceIndex l.length j)).drop (sliceIndex l.length i)

/-- Python `s.split(c)` for an explicit one-character separator: splits
at every occurrence and keeps empty pieces (`''.split(c) == ['']`). -/
def splitKeep : Str → Char → List Str
  | [], _ => [[]]
  | c :: rest, a =>
    match splitKeep rest a with
    | [] => if c = a then [[], []] else [[c]]
    | h :: t => if c = a then [] :: h :: t else (c :: h) :: t

/-- Python `s.split()` with no argument: split on whitespace runs and
drop empty pieces. -/
def splitWs (l : Str) : List Str :=
  ((splitKeep (l.map (fun c => if isWs c then ' ' else c)) ' ').filter
    (fun p => p ≠ []))

/-- Python `s.strip()`. -/
def strip (l : Str) : Str :=
  ((l.dropWhile isWs).reverse.dropWhile isWs).reverse

/-- Python `s.upper()` (ASCII fragment). -/
def upper (l : Str) : Str := l.map Char.toUpper

/-- Python `s.startswith(p)`. -/
def startsWith (l p : Str) : Bool := decide (p <+: l)

/-- Python `', '.join(ps)`-style join with an arbitrary separator. -/
def join (sep : Str) (ps : List Str) : Str := List.intercalate sep ps

/-- Value of an ASCII hex digit, if the character is one. -/
def hexDigit? (c : Char) : Option Nat :=
  if '0' ≤ c ∧ c ≤ '9' then some (c.toNat - '0'.toNat)
  else if 'a' ≤ c ∧ c ≤ 'f' then some (c.toNat - 'a'.toNat + 10)
  else if 'A' ≤ c ∧ c ≤ 'F' then some (c.toNat - 'A'.toNat + 10)
  else none

/-- Hex digits with single underscores allowed between digits (the part
of the CPython `int(s, 16)` grammar after sign and prefix).  `afterDigit`
records whether the previous character was a digit (an underscore is
legal only there, and must be followed by another digit). -/
def hexDigits? : Str → Bool → Nat → Option Nat
  | [], afterDigit, acc => if afterDigit then some acc else none
  | c :: rest, afterDigit, acc =>
    match hexDigit? c with
    | some d => hexDigits? rest true (acc * 16 + d)
    | none =>
      if c = '_' ∧ afterDigit then
        match rest with
        | [] => none
        | c' :: rest' =>
          match hexDigit? c' with
          | some d => hexDigits? rest' true (acc * 16 + d)
          | none => none
      else none

/-- CPython `int(s, 16)`: optional surrounding whitespace, optional
sign, optional `0x`/`0X` prefix (an underscore may follow the prefix),
then hex digits with single underscores between digits.  Returns `none`
when CPython would raise `ValueError`. -/
def intHex? (l : Str) : Option Int :=
  let body := strip l
  let (sign, rest) :=
    match body with
    | '+' :: r => ((1 : Int), r)
    | '-' :: r => ((-1 : Int), r)
    | r => ((1 : Int), r)
  let digits :=
    match rest with
    | '0' :: x :: r =>
      if x = 'x' ∨ x = 'X' then
        match r with
        | '_' :: r' => hexDigits? r' false 0
        | _ => hexDigits? r false 0
      else hexDigits? rest false 0
    | _ => hexDigits? rest false 0
  digits.map (fun n => sign * (n : Int))

/-- Source `str(i)` for an integer: decimal rendering with a leading `-` for
negative values. -/
def intStr (i : Int) : Str := (toString i).data

/-- Python `c.isdigit()` (ASCII fragment). -/
def isDigit (c : Char) : Bool := '0' ≤ c ∧ c ≤ '9'

end Py

/-! ## `ladder_logic.py` — the LD → ST translator -/

namespace LL

/-- The mnemonics classified as conditions
(`CONDITIONAL_FUNCTIONS` in `ladder_logic.py`). -/
def CONDITIONAL_FUNCTIONS : List Str :=
  [S "EQU", S "NEQ", S "XIC", S "XIO", S "GRT", S "GEQ", S "LES", S "LEQ"]

/-- The mnemonics classified as actions
(`REGULAR_FUNCTIONS` in `ladder_logic.py`). -/
def REGULAR_FUNCTIONS : List Str :=
  [S "COP", S "CLR", S "GSV", S "JSR", S "MOV", S "MSG", S "MUL", S "NOP",
   S "OTE", S "OTL", S "OTU", S "SSV", S "TON", S "TOF", S "TONR", S "RES",
   S "CTU", S "CTD", S "CTUD", S "ADD", S "SUB", S "DIV", S "MOD",
   S "SQR", S "ABS", S "OSR", S "OSF", S "RTRIG", S "FTRIG",
   S "BTD", S "DTB", S "FRD", S "TOD"]

/-- Source `LLFunc`: one parsed instruction call, as built by
`LLFunc.__init__` — the parameter string is split on commas, stripped,
and empty entries are dropped. -/
structure LLFunc where
  fname : Str
  params : List Str
deriving DecidableEq, Repr

/-- Source `LLFunc.conditional`: membership of the mnemonic in
`CONDITIONAL_FUNCTIONS`. -/
def LLFunc.conditional (f : LLFunc) : Bool :=
  CONDITIONAL_FUNCTIONS.contains f.fname

/-- Source `LLFunc(fname, params)`: split the parameter text on `','`, strip
each piece, drop empty pieces (`params.split(",") if params else []`
followed by the strip-and-filter comprehension). -/
def mkLLFunc (fname : Str) (paramText : Str) : LLFunc :=
  { fname := fname
    params :=
      if paramText = [] then []
      else ((Py.splitKeep paramText ',').map Py.strip).filter
        (fun p => p ≠ []) }

/-- Source `xic`. -/
def xic (params : List Str) : Str :=
  if params = [] then S "(FALSE)"
  else S "(" ++
    Py.join (S " AND ") (params.map (fun p => S "(" ++ p ++ S " = 1)")) ++
    S ")"

/-- Source `xio`. -/
def xio (params : List Str) : Str :=
  if params = [] then S "(FALSE)"
  else S "(" ++
    Py.join (S " AND ") (params.map (fun p => S "(" ++ p ++ S " = 0)")) ++
    S ")"

/-- Source `equ`. -/
def equ : List Str → Str
  | [a, b] => S "(" ++ a ++ S " = " ++ b ++ S ")"
  | _ => S "(FALSE)"

/-- Source `neq`. -/
def neq : List Str → Str
  | [a, b] => S "(" ++ a ++ S " <> " ++ b ++ S ")"
  | _ => S "(FALSE)"

/-- Source `grt`. -/
def grt : List Str → Str
  | [a, b] => S "(" ++ a ++ S " > " ++ b ++ S ")"
  | _ => S "(FALSE)"

/-- Source `geq`. -/
def geq : List Str → Str
  | [a, b] => S "(" ++ a ++ S " >= " ++ b ++ S ")"
  | _ => S "(FALSE)"

/-- Source `les`. -/
def les : List Str → Str
  | [a, b] => S "(" ++ a ++ S " < " ++ b ++ S ")"
  | _ => S "(FALSE)"

/-- Source `leq`. -/
def leq : List Str → Str
  | [a, b] => S "(" ++ a ++ S " <= " ++ b ++ S ")"
  | _ => S "(FALSE)"

/-- Source `ote(params, condition)`. -/
def ote (params : List Str) (condition : Bool) : Str :=
  match params with
  | [y] => y ++ S " := " ++ (if condition then S "1" else S "0") ++ S ";"
  | _ => S "// ERROR: OTE requires exactly 1 parameter"

/-- Source `otl`. -/
def otl : List Str → Str
  | [y] => y ++ S " := 1;"
  | _ => S "// ERROR: OTL requires exactly 1 parameter"

/-- Source `otu`. -/
def otu : List Str → Str
  | [y] => y ++ S " := 0;"
  | _ => S "// ERROR: OTU requires exactly 1 parameter"

/-- Source `clr`. -/
def clr : List Str → Str
  | [y] => y ++ S " := 0;"
  | _ => S "// ERROR: CLR requires exactly 1 parameter"

/-- Source `nop`. -/
def nop (_ : List Str) : Str := S "// NOP instruction"

/-- Source `gsv`. -/
def gsv : List Str → Str
  | [a, b, c, d] =>
    let parts :=
      (if a = S "?" then [] else [S "ClassName := " ++ a]) ++
      (if b = S "?" then [] else [S "InstanceName := " ++ b]) ++
      (if c = S "?" then [] else [S "AttributeName := " ++ c]) ++
      (if d = S "?" then [] else [S "Dest := " ++ d])
    S "GSV(" ++ Py.join (S ", ") parts ++ S ");"
  | _ => S "// ERROR: GSV requires exactly 4 parameters"

/-- Source `ssv`. -/
def ssv : List Str → Str
  | [a, b, c, d] =>
    S "SSV(" ++ a ++ S ", " ++ b ++ S ", " ++ c ++ S ", " ++ d ++ S ");"
  | _ => S "// ERROR: SSV requires exactly 4 parameters"

/-- Source `jsr`. -/
def jsr : List Str → Str
  | [r] => S "// JSR to " ++ r ++ S " routine\n// TODO: Process " ++ r ++
      S " routine content"
  | _ => S "// ERROR: JSR requires exactly 1 parameter"

/-- Source `ton(params, enable)`. -/
def ton (params : List Str) (enable : Bool) : Str :=
  match params with
  | [t, pre] =>
    t ++ S ".PRE := " ++ pre ++ S ";\n" ++ t ++ S ".TimerEnable := " ++
      (if enable then S "TRUE" else S "FALSE") ++ S ";\nTONR(" ++ t ++ S ");"
  | _ => S "// ERROR: TON requires exactly 2 parameters"

/-- Source `tof(params, enable)`. -/
def tof (params : List Str) (enable : Bool) : Str :=
  match params with
  | [t, pre] =>
    t ++ S ".PRE := " ++ pre ++ S ";\n" ++ t ++ S ".TimerEnable := " ++
      (if enable then S "TRUE" else S "FALSE") ++ S ";\nTOFR(" ++ t ++ S ");"
  | _ => S "// ERROR: TOF requires exactly 2 parameters"

/-- Source `tonr(params, enable)`. -/
def tonr (params : List Str) (enable : Bool) : Str :=
  match params with
  | [t, pre] =>
    t ++ S ".PRE := " ++ pre ++ S ";\n" ++ t ++ S ".TimerEnable := " ++
      (if enable then S "TRUE" else S "FALSE") ++ S ";\nTONR(" ++ t ++ S ");"
  | _ => S "// ERROR: TONR requires exactly 2 parameters"

/-- Source `res`. -/
def res : List Str → Str
  | [t] => t ++ S ".Reset := 1;"
  | _ => S "// ERROR: RES requires exactly 1 parameter"

/-- Source `ctu(params, enable)`. -/
def ctu (params : List Str) (enable : Bool) : Str :=
  match params with
  | [c, pre, rst] =>
    c ++ S ".PRE := " ++ pre ++ S ";\n" ++ c ++ S ".CU := " ++
      (if enable then S "TRUE" else S "FALSE") ++ S ";\n" ++ c ++
      S ".RES := " ++ rst ++ S ";\nCTU(" ++ c ++ S ");"
  | _ => S "// ERROR: CTU requires exactly 3 parameters"

/-- Source `ctd(params, enable)`. -/
def ctd (params : List Str) (enable : Bool) : Str :=
  match params with
  | [c, pre, rst] =>
    c ++ S ".PRE := " ++ pre ++ S ";\n" ++ c ++ S ".CD := " ++
      (if enable then S "TRUE" else S "FALSE") ++ S ";\n" ++ c ++
      S ".RES := " ++ rst ++ S ";\nCTD(" ++ c ++ S ");"
  | _ => S "// ERROR: CTD requires exactly 3 parameters"

/-- Source `ctud`. -/
def ctud (params : List Str) (_enable : Bool) : Str :=
  match params with
  | [c, pre, up, down] =>
    c ++ S ".PRE := " ++ pre ++ S ";\n" ++ c ++ S ".CU := " ++ up ++
      S ";\n" ++ c ++ S ".CD := " ++ down ++ S ";\nCTUD(" ++ c ++ S ");"
  | _ => S "// ERROR: CTUD requires exactly 4 parameters"

/-- Source `mov`. -/
def mov : List Str → Str
  | [src, dst] => dst ++ S " := " ++ src ++ S ";"
  | _ => S "// ERROR: MOV requires exactly 2 parameters"

/-- Source `cop`. -/
def cop : List Str → Str
  | [a, b, c] => S "COP(" ++ a ++ S ", " ++ b ++ S ", " ++ c ++ S ");"
  | _ => S "// ERROR: COP requires exactly 3 parameters"

/-- Source `msg`. -/
def msg : List Str → Str
  | [m] => S "// MSG(" ++ m ++ S ") - commented out"
  | _ => S "// ERROR: MSG requires exactly 1 parameter"

/-- Source `mul`. -/
def mul : List Str → Str
  | [a, b, dst] => dst ++ S " := " ++ a ++ S " * " ++ b ++ S ";"
  | _ => S "// ERROR: MUL requires exactly 3 parameters"

/-- Source `add`. -/
def add : List Str → Str
  | [a, b, dst] => dst ++ S " := " ++ a ++ S " + " ++ b ++ S ";"
  | _ => S "// ERROR: ADD requires exactly 3 parameters"

/-- Source `sub`. -/
def sub : List Str → Str
  | [a, b, dst] => dst ++ S " := " ++ a ++ S " - " ++ b ++ S ";"
  | _ => S "// ERROR: SUB requires exactly 3 parameters"

/-- Source `div`. -/
def div : List Str → Str
  | [a, b, dst] => dst ++ S " := " ++ a ++ S " / " ++ b ++ S ";"
  | _ => S "// ERROR: DIV requires exactly 3 parameters"

/-- Source `mod`. -/
def mod : List Str → Str
  | [a, b, dst] => dst ++ S " := " ++ a ++ S " MOD " ++ b ++ S ";"
  | _ => S "// ERROR: MOD requires exactly 3 parameters"

/-- Source `sqr`. -/
def sqr : List Str → Str
  | [a, dst] => dst ++ S " := SQRT(" ++ a ++ S ");"
  | _ => S "// ERROR: SQR requires exactly 2 parameters"

/-- Source `abs`. -/
def abs : List Str → Str
  | [a, dst] => dst ++ S " := ABS(" ++ a ++ S ");"
  | _ => S "// ERROR: ABS requires exactly 2 parameters"

/-- Source `osr`. -/
def osr : List Str → Str
  | [a, b] => S "OSR(" ++ a ++ S ", " ++ b ++ S ");"
  | _ => S "// ERROR: OSR requires exactly 2 parameters"

/-- Source `osf`. -/
def osf : List Str → Str
  | [a, b] => S "OSF(" ++ a ++ S ", " ++ b ++ S ");"
  | _ => S "// ERROR: OSF requires exactly 2 parameters"

/-- Source `rtrig`. -/
def rtrig : List Str → Str
  | [a] => S "RTRIG(" ++ a ++ S ");"
  | _ => S "// ERROR: RTRIG requires exactly 1 parameter"

/-- Source `ftrig`. -/
def ftrig : List Str → Str
  | [a] => S "FTRIG(" ++ a ++ S ");"
  | _ => S "// ERROR: FTRIG requires exactly 1 parameter"

/-- Source `btd`. -/
def btd : List Str → Str
  | [a, dst] => dst ++ S " := BCD_TO_INT(" ++ a ++ S ");"
  | _ => S "// ERROR: BTD requires exactly 2 parameters"

/-- Source `dtb`. -/
def dtb : List Str → Str
  | [a, dst] => dst ++ S " := INT_TO_BCD(" ++ a ++ S ");"
  | _ => S "// ERROR: DTB requires exactly 2 parameters"

/-- Source `frd`. -/
def frd : List Str → Str
  | [a, dst] => dst ++ S " := REAL_TO_INT(" ++ a ++ S ");"
  | _ => S "// ERROR: FRD requires exactly 2 parameters"

/-- Source `tod`. -/
def tod : List Str → Str
  | [a, dst] => dst ++ S " := INT_TO_REAL(" ++ a ++ S ");"
  | _ => S "// ERROR: TOD requires exactly 2 parameters"

/-- Dispatch through `CONDITIONAL_FUNCTIONS_IMPL`. -/
def condImpl (name : Str) (ps : List Str) : Str :=
  if name = S "EQU" then equ ps
  else if name = S "NEQ" then neq ps
  else if name = S "XIC" then xic ps
  else if name = S "XIO" then xio ps
  else if name = S "GRT" then grt ps
  else if name = S "GEQ" then geq ps
  else if name = S "LES" then les ps
  else leq ps

/-- Dispatch through `REGULAR_FUNCTIONS_IMPL`, with the special-case
arguments used at the call sites in `process_instruction_list`
(`OTE`/`TON` are called with `True`; every two-argument function keeps
its Python default `enable=True`). -/
def regularImpl (name : Str) (ps : List Str) : Str :=
  if name = S "COP" then cop ps
  else if name = S "CLR" then clr ps
  else if name = S "GSV" then gsv ps
  else if name = S "JSR" then jsr ps
  else if name = S "MOV" then mov ps
  else if name = S "MSG" then msg ps
  else if name = S "MUL" then mul ps
  else if name = S "NOP" then nop ps
  else if name = S "OTE" then ote ps true
  else if name = S "OTL" then otl ps
  else if name = S "OTU" then otu ps
  else if name = S "SSV" then ssv ps
  else if name = S "TON" then ton ps true
  else if name = S "TOF" then tof ps true
  else if name = S "TONR" then tonr ps true
  else if name = S "RES" then res ps
  else if name = S "CTU" then ctu ps true
  else if name = S "CTD" then ctd ps true
  else if name = S "CTUD" then ctud ps true
  else if name = S "ADD" then add ps
  else if name = S "SUB" then sub ps
  else if name = S "DIV" then div ps
  else if name = S "MOD" then mod ps
  else if name = S "SQR" then sqr ps
  else if name = S "ABS" then abs ps
  else if name = S "OSR" then osr ps
  else if name = S "OSF" then osf ps
  else if name = S "RTRIG" then rtrig ps
  else if name = S "FTRIG" then ftrig ps
  else if name = S "BTD" then btd ps
  else if name = S "DTB" then dtb ps
  else if name = S "FRD" then frd ps
  else tod ps

/-- One iteration state of the `while` loop of `format_rung_text`:
the current string and the `start` / `offset` indices.  Executing the
body with the Python semantics of `find`, slicing and `replace`. -/
def frtStep (f : Str) (start offset : Int) : Str × Int × Int :=
  let f' := Py.sliceTo f start ++
    ((Py.slice f start offset).map (fun c =>
      if c = ',' then ';' else if c = '[' then '<'
      else if c = ']' then '>' else c)) ++
    Py.sliceFrom f offset
  let start' := Py.find (Py.sliceFrom f' offset) ')' + offset
  let off0 := Py.find (Py.sliceFrom f' start') '('
  let offset' := if off0 ≠ -1 then off0 + start' else -1
  (f', start', offset')

/-- The `while offset != -1` loop of `format_rung_text`, with fuel.
`none` models non-termination of the Python loop. -/
def frtLoop : Nat → Str → Int → Int → Option (Str × Int)
  | 0, _, _, _ => none
  | n + 1, f, start, offset =>
    if offset = -1 then some (f, start)
    else
      let (f', start', offset') := frtStep f start offset
      frtLoop n f' start' offset'

/-- Source `format_rung_text`, with fuel for its `while` loop. -/
def format_rung_text (fuel : Nat) (text : Str) : Option Str :=
  let f0 := Py.removeAll text ' '
  match frtLoop fuel f0 0 (Py.find f0 '(') with
  | none => none
  | some (f, start) =>
    some (if start ≠ -1 then
      Py.sliceTo f start ++ Py.replaceChar (Py.sliceFrom f start) ']' '>'
    else f)

/-- Pair up the tokens `[n₁, p₁, n₂, p₂, …]` as Python's
`for i in range(0, len(tokenized) - 1, 2)` does (a trailing odd token is
dropped). -/
def pairUp : List Str → List (Str × Str)
  | n :: p :: rest => (n, p) :: pairUp rest
  | _ => []

/-- Source `process_sequential_function_calls`. -/
def process_sequential_function_calls (sequence : Str) : List LLFunc :=
  let tokenized :=
    Py.splitWs (((Py.removeAll sequence ' ').map
      (fun c => if c = '(' then ' ' else c)).map
      (fun c => if c = ')' then ' ' else c))
  match tokenized with
  | [t] => [mkLLFunc (Py.removeAll (Py.removeAll t ',') ' ') []]
  | _ =>
    (pairUp tokenized).map (fun np =>
      mkLLFunc (Py.removeAll (Py.removeAll np.1 ',') ' ') np.2)

/-- Source `process_rung_instructions`. -/
def process_rung_instructions (text : Str) : List (List (List LLFunc)) :=
  let tokenized :=
    Py.splitKeep (Py.replaceChar (Py.replaceChar
      (Py.removeAll text ' ') '<' ' ') '>' ' ') ' '
  (tokenized.map (fun block =>
    ((Py.splitKeep block ';').map process_sequential_function_calls).filter
      (fun flist => flist ≠ []))).filter
    (fun disj => disj ≠ [])

/-- The string `"// ERROR: Non-conditional instruction at beginning of
rung\n"` emitted in the guard-building loop. -/
def nonCondError : Str :=
  S "// ERROR: Non-conditional instruction at beginning of rung\n"

/-- Condition text contributed by one function in the guard-building
loop of `process_instruction_list` (the `j` counter only advances on
conditional instructions and is compared against `len(flist)`). -/
def emitCondFlistAux (total : Nat) : Nat → List LLFunc → Str
  | _, [] => []
  | j, f :: rest =>
    if ¬ f.conditional then nonCondError ++ emitCondFlistAux total j rest
    else
      (if CONDITIONAL_FUNCTIONS.contains f.fname then condImpl f.fname f.params
       else S "// Unknown conditional function: " ++ f.fname ++ S "\n") ++
      (if j + 1 < total then S " AND " else []) ++
      emitCondFlistAux total (j + 1) rest

/-- Guard text for one disjunct of `instr_list[0]`. -/
def emitCondFlist (flist : List LLFunc) : Str :=
  emitCondFlistAux flist.length 0 flist

/-- Guard text for `instr_list[0]` (disjuncts joined with `" OR "`). -/
def emitCondGroups (groups : List (List LLFunc)) : Str :=
  Py.join (S " OR ") (groups.map emitCondFlist)

/-- State threaded through the statement-emitting loop of
`process_instruction_list`: the accumulated output, the current
indentation, and the pending conditional instructions. -/
structure EmitSt where
  out : Str
  tab : Str
  cfl : List LLFunc
deriving Repr

/-- The `" AND "`-joined guard for an inner `IF` (lines 516–526 of
`ladder_logic.py`; the `i` counter advances on every element). -/
def innerGuard (cfl : List LLFunc) : Str :=
  Py.join (S " AND ") (cfl.map (fun cf =>
    if CONDITIONAL_FUNCTIONS.contains cf.fname then condImpl cf.fname cf.params
    else S "// Unknown conditional function: " ++ cf.fname))

/-- Processing of a single instruction inside
`process_instruction_list`'s statement loop. -/
def procF (st : EmitSt) (f : LLFunc) : EmitSt :=
  if f.conditional then { st with cfl := st.cfl ++ [f] }
  else
    let st1 :=
      if st.cfl ≠ [] then
        { st with
          out := st.out ++ st.tab ++ S "IF (" ++ innerGuard st.cfl ++
            S ") THEN\n"
          tab := st.tab ++ S "\t" }
      else st
    let line :=
      if REGULAR_FUNCTIONS.contains f.fname then regularImpl f.fname f.params
      else S "// Unknown function: " ++ f.fname ++ S "(" ++
        Py.join (S ", ") f.params ++ S ")\n"
    let st2 :=
      { st1 with
        out := st1.out ++ st1.tab ++ line ++
          (if REGULAR_FUNCTIONS.contains f.fname then S "\n" else []) }
    let st3 :=
      if st.cfl ≠ [] ∧ f.fname = S "OTE" then
        { st2 with
          out := st2.out ++ Py.removeFirst st2.tab '\t' ++ S "ELSE\n" ++
            st2.tab ++ ote f.params false ++ S "\n" }
      else st2
    if st.cfl ≠ [] then
      { st3 with
        tab := Py.removeFirst st3.tab '\t'
        out := st3.out ++ Py.removeFirst st3.tab '\t' ++ S "END_IF;\n"
        cfl := [] }
    else st3

/-- One disjunct of the statement group: `conditional_func_list` starts
empty for each `flist`. -/
def procFlist (acc : Str × Str) (flist : List LLFunc) : Str × Str :=
  let st := flist.foldl procF { out := acc.1, tab := acc.2, cfl := [] }
  (st.out, st.tab)

/-- Source `process_instruction_list`. -/
def process_instruction_list (instr_list : List (List (List LLFunc)))
    (tab : Str) : Str :=
  let header :=
    if instr_list.length > 1 then
      S "IF (" ++ emitCondGroups (instr_list.headD []) ++ S ") THEN\n"
    else []
  let tab0 := if instr_list.length > 1 then tab ++ S "\t" else tab
  let idx := if instr_list.length > 1 then 1 else 0
  let body :=
    match instr_list.get? idx with
    | none => (header, tab0)
    | some group => group.foldl procFlist (header, tab0)
  if instr_list.length > 1 then body.1 ++ S "END_IF;\n" else body.1

/-- Source `process_rung`, with fuel for the formatting loop. -/
def process_rung (fuel : Nat) (rung_text : Str) : Option Str :=
  (format_rung_text fuel rung_text).map (fun formatted =>
    process_instruction_list (process_rung_instructions formatted) [])

/-- Source `translate_ladder_to_st`, with fuel for the formatting loop.  The
Python wrapper catches exceptions; none of the functions it calls can
raise, so the `except` branch is not represented.  `none` models
non-termination of the `format_rung_text` loop. -/
def translate_ladder_to_st (fuel : Nat) (ladder_text : Str) : Option Str :=
  process_rung fuel ladder_text

end LL

/-! ## `constants.py` and `utils.py` — identifier policy and tag values -/

namespace U

/-- Source `RESERVED_WORDS` from `constants.py`, in source order.  The keys are
case-sensitive Python `dict` keys. -/
def RESERVED_WORDS : List (Str × Str) :=
  [(S "ON", S "ON1"),
   (S "type", S "TYPE1"),
   (S "EN", S "EN1"),
   (S "SCALE", S "scl1"),
   (S "alm", S "alarm1"),
   (S "Alarm", S "alert"),
   (S "ALARM", S "alert"),
   (S "TON", S "TON1"),
   (S "R_TRIG", S "R_TRIG1"),
   (S "TO", S "TO1"),
   (S "SHUTODWN1", S "SHUTDOWN1"),
   (S "SHUTODWN2", S "SHUTDOWN2"),
   (S "SHUTODWN3", S "SHUTDOWN3"),
   (S "SHUTODWN4", S "SHUTDOWN4"),
   (S "SHUTODWN5", S "SHUTDOWN5"),
   (S "SHUTDOWN", S "Shutdown"),
   (S "status", S "Status"),
   (S "STATUS", S "Status"),
   (S "HTY", S "Hty"),
   (S "AVL", S "Avl")]

/-- Python `RESERVED_WORDS[k]` (the keys are pairwise distinct, so the
first match is the only one). -/
def reservedGet (k : Str) : Option Str :=
  (RESERVED_WORDS.find? (fun p => p.1 = k)).map (fun p => p.2)

/-- The character class `[^a-zA-Z0-9_]` of `clean_identifier`'s
`re.sub`. -/
def isWordChar (c : Char) : Bool :=
  ('a' ≤ c ∧ c ≤ 'z') ∨ ('A' ≤ c ∧ c ≤ 'Z') ∨ ('0' ≤ c ∧ c ≤ '9') ∨ c = '_'

/-- Source `clean_identifier`: replace every character outside `[a-zA-Z0-9_]`
with `_`, then prefix `var_` when the first character is a digit. -/
def clean_identifier (identifier : Str) : Str :=
  let cleaned := identifier.map (fun c => if isWordChar c then c else '_')
  match cleaned with
  | c :: _ => if Py.isDigit c then S "var_" ++ cleaned else cleaned
  | [] => []

/-- Source `sanitize_identifier`: if `identifier.upper()` is a key of
`RESERVED_WORDS`, return the mapped replacement, else clean the
identifier. -/
def sanitize_identifier (identifier : Str) : Str :=
  match reservedGet (Py.upper identifier) with
  | some v => v
  | none => clean_identifier identifier

/-- The ASCII apostrophe (the quote character of the hex-value
literals of `extract_tag_info`). -/
def qc : Char := Char.ofNat 39

/-- The value-handling step of `extract_tag_info` (`utils.py`
lines 302–309): a string value that starts with `'$` and ends with `'`
has its interior `$` signs removed and the remainder parsed with
`int(_, 16)`; on success the decimal rendering replaces the value, on
`ValueError` the value is kept. -/
def decodeTagValue (value : Str) : Str :=
  if Py.startsWith value (qc :: S "$") ∧ value.getLast? = some qc then
    let hexStr := Py.removeAll (Py.slice value 2 (-1)) '$'
    match Py.intHex? hexStr with
    | some n => Py.intStr n
    | none => value
  else value

end U

/-! ## `ir_converter.py` — the IR model and `calculate_fidelity_score` -/

namespace IR

/-- Source `TagScope` (`models.py`). -/
inductive TagScope where
  | controller
  | program
deriving DecidableEq, Repr

/-- Source `IRTag` (the fields read by `calculate_fidelity_score`). -/
structure IRTag where
  name : Str
  data_type : Str
  scope : TagScope
deriving DecidableEq, Repr

/-- Source `IRDataTypeMember`. -/
structure IRDataTypeMember where
  name : Str
  data_type : Str
deriving DecidableEq, Repr

/-- Source `IRDataType`. -/
structure IRDataType where
  name : Str
  members : List IRDataTypeMember
deriving DecidableEq, Repr

/-- Source `IRRoutine` (only its presence is counted by the scorer). -/
structure IRRoutine where
  name : Str
  content : Str
deriving DecidableEq, Repr

/-- Source `IRProgram`. -/
structure IRProgram where
  name : Str
  routines : List IRRoutine
deriving DecidableEq, Repr

/-- Source `IRController` (the fields read by `calculate_fidelity_score`). -/
structure IRController where
  name : Str
  tags : List IRTag
  data_types : List IRDataType
deriving DecidableEq, Repr

/-- Source `IRProject`. -/
structure IRProject where
  controller : IRController
  programs : List IRProgram
deriving DecidableEq, Repr

/-- The keys of the Python dict `{x.name: x for x in l}`: distinct names
in first-occurrence order. -/
def dictKeys (names : List Str) : List Str :=
  match names with
  | [] => []
  | n :: rest => n :: (dictKeys rest).filter (fun m => m ≠ n)

/-- The value stored under a key by `{x.name: x for x in l}`: the last
element with that name. -/
def dictVal {α : Type} (key : α → Str) (l : List α) (n : Str) : Option α :=
  (l.filter (fun x => key x = n)).getLast?

/-- Number of dict keys of `original` whose entry matches the entry of
the same name in `converted` under `p`. -/
def matchedCount {α : Type} (key : α → Str) (original converted : List α)
    (p : α → α → Bool) : Nat :=
  (dictKeys (original.map key)).countP (fun n =>
    match dictVal key original n, dictVal key converted n with
    | some x, some y => p x y
    | _, _ => false)

/-- Source `calculate_fidelity_score` (`ir_converter.py` lines 619–661).  The
three comparison loops key their components by name through Python
dicts, so duplicate names collapse (last occurrence wins); the result is
the exact rational `matched / total`, `1` when `total = 0`. -/
def calculate_fidelity_score (original converted : IRProject) : ℚ :=
  let tagTotal := (dictKeys (original.controller.tags.map IRTag.name)).length
  let tagMatched := matchedCount IRTag.name original.controller.tags
    converted.controller.tags (fun t t' =>
      t.data_type = t'.data_type ∧ t.scope = t'.scope)
  let dtTotal :=
    (dictKeys (original.controller.data_types.map IRDataType.name)).length
  let dtMatched := matchedCount IRDataType.name original.controller.data_types
    converted.controller.data_types (fun d d' =>
      d.members.length = d'.members.length)
  let progTotal := (dictKeys (original.programs.map IRProgram.name)).length
  let progMatched := matchedCount IRProgram.name original.programs
    converted.programs (fun p p' => p.routines.length = p'.routines.length)
  let total := tagTotal + dtTotal + progTotal
  let matched := tagMatched + dtMatched + progMatched
  if total = 0 then 1 else (matched : ℚ) / (total : ℚ)

/-- The fidelity contract as the spec words it (claim C7): the
denominator is the raw component count of `original` and a component is
matched when some component of `converted` agrees with it.  This is the
comparison definition for the refinement check; the code's behavior is
`calculate_fidelity_score` above. -/
def specFidelityScore (original converted : IRProject) : ℚ :=
  let total := original.controller.tags.length +
    original.controller.data_types.length + original.programs.length
  let matched :=
    original.controller.tags.countP (fun t =>
      converted.controller.tags.any (fun t' =>
        t.name = t'.name ∧ t.data_type = t'.data_type ∧ t.scope = t'.scope)) +
    original.controller.data_types.countP (fun d =>
      converted.controller.data_types.any (fun d' =>
        d.name = d'.name ∧ d.members.length = d'.members.length)) +
    original.programs.countP (fun p =>
      converted.programs.any (fun p' =>
        p.name = p'.name ∧ p.routines.length = p'.routines.length))
  if total = 0 then 1 else (matched : ℚ) / (total : ℚ)

end IR

/-! ## `st2l5x.py` — the emitted `DataTypes` section -/

namespace STX

/-- One `DataType` element of the emitted `DataTypes` section. -/
structure DataTypeElem where
  name : Str
  family : Str
  klass : Str
  base : Str
deriving DecidableEq, Repr

/-- The `basic_types` list of `_add_basic_data_types`
(`st2l5x.py` lines 201–218), in source order. -/
def basic_types : List (Str × Str) :=
  [(S "BOOL", S "BOOL"), (S "SINT", S "SINT"), (S "INT", S "INT"),
   (S "DINT", S "DINT"), (S "LINT", S "LINT"), (S "USINT", S "USINT"),
   (S "UINT", S "UINT"), (S "UDINT", S "UDINT"), (S "ULINT", S "ULINT"),
   (S "REAL", S "REAL"), (S "LREAL", S "LREAL"), (S "TIME", S "TIME"),
   (S "DATE", S "DATE"), (S "TOD", S "TOD"), (S "DT", S "DT"),
   (S "STRING", S "STRING")]

/-- Source `_basic_types` (`st2l5x.py` lines 342–346): the set used to decide
which declared types are user types. -/
def basicTypesSet : List Str := basic_types.map (fun p => p.1)

/-- Source `_add_basic_data_types`: the children appended to the `DataTypes`
element — the sixteen basic types first, then one element per recorded
user type (Python iterates a `set` here, so the relative order of the
user types is implementation-defined; `userTypes` stands for that
iteration order). -/
def addBasicDataTypes (userTypes : List Str) : List DataTypeElem :=
  basic_types.map (fun p =>
    { name := p.1, family := S "NoFamily", klass := S "User", base := p.2 }) ++
  userTypes.map (fun u =>
    { name := u, family := S "NoFamily", klass := S "User", base := S "DINT" })

end STX

/-! ## `fbd_translator.py` — dependency graph and execution order -/

namespace FBD

/-- One parsed `Wire` element: `FromID`, `ToID`, `FromParam`,
`ToParam`. -/
structure Wire where
  fromId : Str
  toId : Str
  fromParam : Option Str
  toParam : Option Str
deriving DecidableEq, Repr

/-- A parsed sheet, as held in the translator's maps after
`_parse_input_refs` / `_parse_output_refs` / `_parse_function_blocks` /
`_parse_wires`: reference maps as association lists in document order,
the function-block ids in insertion order with their operands, the
per-block `InOutParameter` bindings (`fb_info['inputs']`, the final
dict state: distinct keys in insertion order), and the wire list.  (The
XML walk itself is external to the core.) -/
structure Sheet where
  inputRefs : List (Str × Str)
  outputRefs : List (Str × Str)
  blocks : List (Str × Str)
  inputs : List (Str × List (Str × Str))
  wires : List Wire
deriving Repr

/-- Membership of an id in the function-block map. -/
def isBlock (sh : Sheet) (i : Str) : Bool :=
  sh.blocks.any (fun b => b.1 = i)

/-- Source `dependencies[b]` as built by `_determine_execution_order`: the
sources of wires into `b` whose two endpoints are both function blocks.
The Python code collects them in a `set`; they are kept here in wire
order, deduplicated (the theorems below do not depend on this order). -/
def deps (sh : Sheet) (b : Str) : List Str :=
  ((sh.wires.filter (fun w =>
    w.toId = b ∧ isBlock sh w.fromId ∧ isBlock sh w.toId)).map
    Wire.fromId).dedup

/-- The state of the DFS: the `visited` set and the accumulated
`execution_order`. -/
structure DfsSt where
  visited : List Str
  order : List Str
deriving Repr

/-- Source `visit` of `_determine_execution_order`, with explicit fuel and the
temporary-mark list `temp` passed down (the Python code adds to and then
removes from a shared set, which is the same thing).  A node already
temporarily marked (a cycle) or already visited contributes nothing;
otherwise the `for dep in dependencies.get(fb_id, [])` loop recurses
into each dependency (re-checked against the block map) and the node is
appended to `visited` and `execution_order`. -/
def visit (sh : Sheet) : Nat → List Str → Str → DfsSt → DfsSt
  | 0, _, _, st => st
  | fuel + 1, temp, b, st =>
    if b ∈ temp then st
    else if b ∈ st.visited then st
    else
      let st' := (deps sh b).foldl
        (fun s d => if isBlock sh d then visit sh fuel (b :: temp) d s else s)
        st
      { visited := st'.visited ++ [b], order := st'.order ++ [b] }

/-- Source `_determine_execution_order`: DFS from every function block in
insertion order.  The fuel `|blocks| + 1` is enough for the recursion
(each recursive call temporarily marks a new block), which is proved
below. -/
def executionOrder (sh : Sheet) : List Str :=
  (sh.blocks.foldl (fun st b =>
    if b.1 ∈ st.visited then st
    else visit sh (sh.blocks.length + 1) [] b.1 st)
    { visited := [], order := [] }).order

/-- Source `_get_source_value`: the input-reference map, then the
output-reference map, then a function block — where a truthy
`from_param` found in the block's `fb_info['inputs']` yields the bound
argument and one not found yields `operand.param`; a falsy `from_param`
(absent attribute or empty string, modelled as `none` or `some []`)
falls through to `None`. -/
def getSourceValue (sh : Sheet) (fromId : Str) (fromParam : Option Str) :
    Option Str :=
  match (sh.inputRefs.find? (fun p => p.1 = fromId)).map (fun p => p.2) with
  | some v => some v
  | none =>
    match (sh.outputRefs.find? (fun p => p.1 = fromId)).map (fun p => p.2) with
    | some v => some v
    | none =>
      match sh.blocks.find? (fun b => b.1 = fromId), fromParam with
      | some b, some pr =>
        if pr ≠ [] then
          match (((sh.inputs.find? (fun q => q.1 = fromId)).map
              (fun q => q.2)).getD []).find? (fun e => e.1 = pr) with
          | some e => some e.2
          | none => some (b.2 ++ S "." ++ pr)
        else none
      | _, _ => none

/-- Source `_generate_fb_code` for one block id.  Both the
`wire['to_param']` and the `source_value` guards are Python truthiness
checks, so an empty string (modelled `some []`) is skipped exactly like
a missing one. -/
def generateFbCode (sh : Sheet) (fbId : Str) (operand : Str) : Str :=
  let params := sh.wires.foldr (fun w acc =>
    if w.toId = fbId then
      match w.toParam with
      | some tp =>
        if tp ≠ [] then
          match getSourceValue sh w.fromId w.fromParam with
          | some v => if v ≠ [] then (tp ++ S " := " ++ v) :: acc else acc
          | none => acc
        else acc
      | none => acc
    else acc) []
  if params ≠ [] then operand ++ S "(" ++ Py.join (S ", ") params ++ S ");"
  else operand ++ S "();"

/-- Source `_generate_output_assignments`.  The `wire['from_param']`
guard is a Python truthiness check, so an empty string (`some []`) is
skipped like a missing one. -/
def generateOutputAssignments (sh : Sheet) : List Str :=
  sh.wires.foldr (fun w acc =>
    if isBlock sh w.fromId ∧ (sh.outputRefs.any (fun p => p.1 = w.toId)) then
      match w.fromParam, sh.blocks.find? (fun b => b.1 = w.fromId),
        (sh.outputRefs.find? (fun p => p.1 = w.toId)) with
      | some fp, some b, some oref =>
        if fp ≠ [] then
          (oref.2 ++ S " := " ++ b.2 ++ S "." ++ fp ++ S ";") :: acc
        else acc
      | _, _, _ => acc
    else acc) []

/-- Source `_generate_st_code`: the call statements in execution order
(each kept only `if fb_code`, a truthiness check that never fails since
a call line at least holds `();`), then the output assignments. -/
def generateStCode (sh : Sheet) : List Str :=
  (((executionOrder sh).map (fun i =>
    generateFbCode sh i
      (((sh.blocks.find? (fun b => b.1 = i)).map (fun b => b.2)).getD []))).filter
    (fun c => c ≠ [])) ++
  generateOutputAssignments sh

/-- Source `parse_fbd_content` / `translate_fbd_to_st` on the parsed sheets:
a sheet contributes its `// Sheet n` header and its code only `if
sheet_code` is a nonempty string, and when nothing is collected the
fallback `// No FBD content to translate` is returned. -/
def translate_fbd_to_st (sheets : List Sheet) : Str :=
  let pieces := sheets.enum.foldr (fun p acc =>
    let code := Py.join (S "\n") (generateStCode p.2)
    if code ≠ [] then
      (S "// Sheet " ++ Py.intStr (p.1 + 1)) :: code :: acc
    else acc) []
  match pieces with
  | [] => S "// No FBD content to translate"
  | _ => Py.join (S "\n") pieces

end FBD

/-! ## Definitions used by the verification statements -/

namespace LL

/-- Characters that survive every normalization step of the rung
pipeline unchanged and are never treated as structure: anything except
parentheses, brackets, angle brackets, comma, semicolon and
whitespace. -/
def plainChar (c : Char) : Bool :=
  ¬ (c = '(' ∨ c = ')' ∨ c = '[' ∨ c = ']' ∨ c = '<' ∨ c = '>' ∨
     c = ',' ∨ c = ';') ∧ ¬ Py.isWs c

/-- A rendered instruction call `name(inner)`. -/
def renderCall (c : Str × Str) : Str := c.1 ++ '(' :: (c.2 ++ [')'])

/-- A juxtaposed sequence of rendered calls, as it appears in a rung
text without branch brackets. -/
def renderCalls (cs : List (Str × Str)) : Str := (cs.map renderCall).flatten

/-- Well-formedness of a call name for the rung pipeline: nonempty and
made of plain characters. -/
def NameOk (n : Str) : Prop := n ≠ [] ∧ ∀ c ∈ n, plainChar c = true

/-- Well-formedness of a call's parenthesized interior: nonempty, every
character plain or a comma. -/
def InnerOk (p : Str) : Prop :=
  p ≠ [] ∧ ∀ c ∈ p, plainChar c = true ∨ c = ','

/-- The `offset` the formatting loop holds when the remaining calls are
`rem` and everything before the closing parenthesis at index `|u|` has
been scanned. -/
def nextOffset (u : Str) (rem : List (Str × Str)) : Int :=
  match rem with
  | [] => -1
  | (n, _) :: _ => ((u.length + 1 + n.length : Nat) : Int)

/-- The rung text `m₁(p…)m₂(p…)…OTE(y)` built from condition
instructions `cs` (mnemonic and parameter list) and the output tag
`y`. -/
def rungText (cs : List (Str × List Str)) (y : Str) : Str :=
  renderCalls ((cs.map (fun c => (c.1, Py.join (S ",") c.2))) ++ [(S "OTE", y)])

/-- Well-formedness of one condition instruction for the purity
statement: a condition mnemonic, and a nonempty list of nonempty
parameters made of plain characters. -/
def CondOk (c : Str × List Str) : Prop :=
  c.1 ∈ CONDITIONAL_FUNCTIONS ∧ c.2 ≠ [] ∧
    ∀ p ∈ c.2, p ≠ [] ∧ ∀ ch ∈ p, plainChar ch

end LL

namespace FBD

/-- The dependency edge recorded by `_determine_execution_order`:
`a ∈ dependencies[b]`. -/
def Edge (sh : Sheet) (a b : Str) : Prop := a ∈ deps sh b

/-- Acyclicity of the block-to-block wire graph of a sheet. -/
def Acyclic (sh : Sheet) : Prop :=
  ∀ x, ¬ Relation.TransGen (Edge sh) x x

/-- Position of the first occurrence of `a` in `l` (length of `l` when
absent). -/
def pos : List Str → Str → Nat
  | [], _ => 0
  | x :: l, a => if x = a then 0 else pos l a + 1

/-- Emission of `a` strictly precedes emission of `b` in the list
`l`. -/
def Precedes (l : List Str) (a b : Str) : Prop :=
  a ∈ l ∧ b ∈ l ∧ pos l a < pos l b

/-- A two-block sheet with no wires at all (insertion order `A`, `B`),
for the tie-breaking witness. -/
def ceSheetNoWires : Sheet :=
  { inputRefs := [], outputRefs := [],
    blocks := [(S "A", S "opA"), (S "B", S "opB")],
    inputs := [], wires := [] }

/-- Counterexample sheet for the tie-breaking half of the topological
claim: blocks inserted in the order `A`, `B`, `C`, with a single wire
`C → A`. -/
def ceSheet : Sheet :=
  { inputRefs := [], outputRefs := [],
    blocks := [(S "A", S "opA"), (S "B", S "opB"), (S "C", S "opC")],
    inputs := [],
    wires := [{ fromId := S "C", toId := S "A",
                fromParam := some (S "out"), toParam := some (S "inp") }] }

end FBD

namespace IR

/-- Counterexample project: two controller tags that share the name `X`
(`BOOL` first, `INT` second), no user types, no programs. -/
def ceOriginal : IRProject :=
  { controller :=
      { name := S "Ctl",
        tags := [{ name := S "X", data_type := S "BOOL",
                   scope := TagScope.controller },
                 { name := S "X", data_type := S "INT",
                   scope := TagScope.controller }],
        data_types := [] },
    programs := [] }

/-- Converted counterpart of `ceOriginal`: a single tag `X : INT`. -/
def ceConverted : IRProject :=
  { controller :=
      { name := S "Ctl",
        tags := [{ name := S "X", data_type := S "INT",
                   scope := TagScope.controller }],
        data_types := [] },
    programs := [] }

/-- An empty project (zero components). -/
def ceEmpty : IRProject :=
  { controller := { name := S "Ctl", tags := [], data_types := [] },
    programs := [] }

end IR

namespace U

/-- The literal `'$00$00$00$1E'` of the hex-decoding scenario. -/
def hexLit : Str := qc :: (S "$00$00$00$1E" ++ [qc])

/-- The literal `'$+1E'`: delimited like a hex value but not of the
`$hh$hh…` shape (its interior starts with a sign). -/
def signLit : Str := qc :: (S "$+1E" ++ [qc])

/-- Whether a value is delimited like a hex literal
(starts with `'$`, ends with `'`). -/
def hexDelimited (v : Str) : Bool :=
  Py.startsWith v (qc :: S "$") ∧ v.getLast? = some qc

end U

namespace FBD

/-- Number of blocks not yet temporarily marked; the DFS fuel bound. -/
def unvisitedCount (sh : Sheet) (temp : List Str) : Nat :=
  (sh.blocks.map Prod.fst).countP (fun x => ¬ x ∈ temp)

/-- A list of block ids respects the dependency edges: every listed
node's dependencies are listed before it. -/
def GoodOrder (sh : Sheet) (l : List Str) : Prop :=
  ∀ b ∈ l, ∀ a, Edge sh a b → a ∈ l ∧ pos l a < pos l b

/-- The DFS state invariant: `visited` and `order` coincide, the order
has no duplicates, lists only blocks, and respects the edges. -/
def Inv (sh : Sheet) (st : DfsSt) : Prop :=
  st.visited = st.order ∧ st.order.Nodup ∧
    (∀ x ∈ st.order, isBlock sh x = true) ∧ GoodOrder sh st.order

end FBD

/-! ## Claims C1 and C2 — concrete rung translations -/

/-- C1 (counterexample): on the rung `XIC(Go)TON(T1,T#5s,Elapsed)` the
rung translator emits an arity-error comment — the claimed `T1.PT`,
`T1.IN`, `T1.ET`, `T1.Q` and `Elapsed` assignments appear nowhere in
its output. -/
theorem claim_C1_counterexample :
    LL.translate_ladder_to_st 100 (S "XIC(Go)TON(T1,T#5s,Elapsed)") =
      some (S "IF (((Go = 1))) THEN\n\t// ERROR: TON requires exactly 2 parameters\nEND_IF;\n") ∧
    ¬ (S "T1.PT" <:+:
      S "IF (((Go = 1))) THEN\n\t// ERROR: TON requires exactly 2 parameters\nEND_IF;\n") ∧
    ¬ (S "Elapsed := T1.ET" <:+:
      S "IF (((Go = 1))) THEN\n\t// ERROR: TON requires exactly 2 parameters\nEND_IF;\n") := by
  refine ⟨?_, by decide, by decide⟩
  decide

/-- C1 (amended): for the rung `XIC(Go)TON(T1,T#5s,Elapsed)`,
`translate_ladder_to_st` emits the guard `IF (((Go = 1))) THEN`, then
the inline comment `// ERROR: TON requires exactly 2 parameters`
(this translator's `TON` takes exactly two parameters — timer and
preset — and, when given two, emits `.PRE`/`.TimerEnable`/`TONR(…)`
statements, not `.PT`/`.IN`/`.ET`/`.Q`), then `END_IF;`; no ELSE arm is
produced. -/
theorem claim_C1_amended :
    LL.translate_ladder_to_st 100 (S "XIC(Go)TON(T1,T#5s,Elapsed)") =
      some (S "IF (((Go = 1))) THEN\n\t// ERROR: TON requires exactly 2 parameters\nEND_IF;\n") ∧
    LL.ton [S "T1", S "T#5s"] true =
      S "T1.PRE := T#5s;\nT1.TimerEnable := TRUE;\nTONR(T1);" := by
  constructor <;> decide

/-- C2 (counterexample): on the rung `XIC(Start),XIO(Stop)OTE(Run)` the
emitted ST does not contain `IF ((Start = 1) AND (Stop = 0)) THEN`; the
`XIC(Start)` condition is dropped entirely (the comma splits the rung
into sequence groups and an all-conditional group followed by no action
emits nothing). -/
theorem claim_C2_counterexample :
    LL.translate_ladder_to_st 100 (S "XIC(Start),XIO(Stop)OTE(Run)") =
      some (S "IF (((Stop = 0))) THEN\n\tRun := 1;\nELSE\n\tRun := 0;\nEND_IF;\n") ∧
    ¬ (S "IF ((Start = 1) AND (Stop = 0)) THEN" <:+:
      S "IF (((Stop = 0))) THEN\n\tRun := 1;\nELSE\n\tRun := 0;\nEND_IF;\n") ∧
    ¬ (S "Start" <:+:
      S "IF (((Stop = 0))) THEN\n\tRun := 1;\nELSE\n\tRun := 0;\nEND_IF;\n") := by
  refine ⟨?_, by decide, by decide⟩
  decide

/-- C2 (amended): for the rung `XIC(Start),XIO(Stop)OTE(Run)`,
`translate_ladder_to_st` produces exactly
`IF (((Stop = 0))) THEN`, `Run := 1;`, `ELSE`, `Run := 0;`, `END_IF;`
(in that order): the comma makes `XIC(Start)` a separate all-conditional
sequence group, which is discarded, and each condition is doubly
parenthesized. -/
theorem claim_C2_amended :
    LL.translate_ladder_to_st 100 (S "XIC(Start),XIO(Stop)OTE(Run)") =
      some (S "IF (((Stop = 0))) THEN\n\tRun := 1;\nELSE\n\tRun := 0;\nEND_IF;\n") := by
  decide

/-! ## Claim C9 — the emitted `DataTypes` section -/

/-- C9 (counterexample): the serializer's fixed base-type list has
sixteen entries and stops at `STRING` — `BYTE`, `WORD`, `DWORD` and
`LWORD` are not emitted. -/
theorem claim_C9_counterexample :
    (STX.addBasicDataTypes []).length = 16 ∧
    S "BYTE" ∉ (STX.addBasicDataTypes []).map STX.DataTypeElem.name ∧
    S "WORD" ∉ (STX.addBasicDataTypes []).map STX.DataTypeElem.name ∧
    S "DWORD" ∉ (STX.addBasicDataTypes []).map STX.DataTypeElem.name ∧
    S "LWORD" ∉ (STX.addBasicDataTypes []).map STX.DataTypeElem.name := by
  refine ⟨by decide, by decide, by decide, by decide, by decide⟩

/-- C9 (amended): the `DataTypes` section emitted by the ST-to-L5X
serializer consists of the fixed set of sixteen base types
`BOOL, SINT, INT, DINT, LINT, USINT, UINT, UDINT, ULINT, REAL, LREAL,
TIME, DATE, TOD, DT, STRING` (in that order, matching `_basic_types`),
followed by the user-defined types recorded by the lifter — whatever
order Python's set iteration yields for them. -/
theorem claim_C9_amended (userTypes : List Str) :
    (STX.addBasicDataTypes userTypes).map STX.DataTypeElem.name =
      STX.basicTypesSet ++ userTypes ∧
    STX.basicTypesSet =
      [S "BOOL", S "SINT", S "INT", S "DINT", S "LINT", S "USINT", S "UINT",
       S "UDINT", S "ULINT", S "REAL", S "LREAL", S "TIME", S "DATE",
       S "TOD", S "DT", S "STRING"] := by
  constructor
  · simp [STX.addBasicDataTypes, STX.basicTypesSet, List.map_map,
      Function.comp_def]
  · decide

/-! ## Claims C5 and C6 — the identifier policy -/

/-- C6 (counterexample): `"type"` is a key of `RESERVED_WORDS` (mapped
to `"TYPE1"`), but `sanitize_identifier("type")` returns `"type"`
unchanged: the lookup uppercases the input and the table has no key
`"TYPE"`, so lowercase keys are never matched. -/
theorem claim_C6_counterexample :
    (S "type", S "TYPE1") ∈ U.RESERVED_WORDS ∧
    U.sanitize_identifier (S "type") = S "type" ∧
    S "type" ≠ S "TYPE1" := by
  refine ⟨by decide, by decide, by decide⟩

/-- C6 (amended): matching is by uppercasing the input, so a key is
only mapped to its replacement when its uppercased form is itself a
key.  Every key of `RESERVED_WORDS` except `"type"` and `"alm"` has
that property and satisfies `sanitize(k) = RESERVED_WORDS[k]`; the keys
`"type"` and `"alm"` are returned unchanged. -/
theorem claim_C6_amended :
    ∀ p ∈ U.RESERVED_WORDS,
      (p.1 = S "type" ∨ p.1 = S "alm" → U.sanitize_identifier p.1 = p.1) ∧
      (p.1 ≠ S "type" ∧ p.1 ≠ S "alm" → U.sanitize_identifier p.1 = p.2) := by
  decide

/-- C6 (witness): the amended statement applied to the first table
entry `("ON", "ON1")`. -/
theorem claim_C6_witness :
    U.sanitize_identifier (S "ON") = S "ON1" :=
  (claim_C6_amended (S "ON", S "ON1") (by decide)).2 (by decide)

/-- C5 (counterexample): the sanitizer is not idempotent.  Cleaning
`"r-trig"` yields `"r_trig"`, which is not itself a reserved word until
it is uppercased on the second pass and hits the key `"R_TRIG"`; so
`sanitize("r-trig") = "r_trig"` but
`sanitize(sanitize("r-trig")) = "R_TRIG1"`. -/
theorem claim_C5_counterexample :
    U.sanitize_identifier (S "r-trig") = S "r_trig" ∧
    U.sanitize_identifier (U.sanitize_identifier (S "r-trig")) = S "R_TRIG1" ∧
    U.sanitize_identifier (U.sanitize_identifier (S "r-trig")) ≠
      U.sanitize_identifier (S "r-trig") := by
  refine ⟨by decide, by decide, by decide⟩

/-! ## Claim C5 (amended) — scoped idempotence of the sanitizer -/

namespace U

/-- Members of the `var_` prefix are word characters. -/
theorem varPrefix_wordChars : ∀ c ∈ S "var_", isWordChar c = true := by decide

/-- Every character of a cleaned identifier is in `[A-Za-z0-9_]`. -/
theorem clean_identifier_wordChars (s : Str) :
    ∀ c ∈ clean_identifier s, isWordChar c = true := by
  intro c hc
  unfold clean_identifier at hc
  have hmem : ∀ x ∈ s.map (fun c => if isWordChar c then c else '_'),
      isWordChar x = true := by
    intro x hx
    rcases List.mem_map.mp hx with ⟨y, _, rfl⟩
    by_cases h : isWordChar y
    · simp [h]
    · simp only [h]
      simp [isWordChar]
  rcases htt : s.map (fun c => if isWordChar c then c else '_') with _ | ⟨d, t⟩
  · rw [htt] at hc; cases hc
  · rw [htt] at hc
    dsimp only at hc
    by_cases hd : Py.isDigit d
    · rw [if_pos hd] at hc
      rcases List.mem_append.mp hc with h | h
      · exact varPrefix_wordChars c h
      · exact hmem c (htt ▸ h)
    · rw [if_neg (by simp [hd])] at hc
      exact hmem c (htt ▸ hc)

/-- A cleaned identifier never starts with a digit. -/
theorem clean_identifier_head (s : Str) :
    ∀ c rest, clean_identifier s = c :: rest → Py.isDigit c = false := by
  intro c rest h
  unfold clean_identifier at h
  rcases htt : s.map (fun c => if isWordChar c then c else '_') with _ | ⟨d, t⟩
  · rw [htt] at h; cases h
  · rw [htt] at h
    dsimp only at h
    by_cases hd : Py.isDigit d
    · rw [if_pos hd] at h
      have hv : c = 'v' := by
        have h2 := congrArg List.head? h
        simp only [S] at h2
        simpa using h2.symm
      subst hv; decide
    · rw [if_neg (by simp [hd])] at h
      cases h
      simpa using hd

/-- Cleaning fixes any string of word characters that does not start
with a digit. -/
theorem clean_identifier_fixpoint (s : Str)
    (h : ∀ c ∈ s, isWordChar c = true)
    (h0 : ∀ c rest, s = c :: rest → Py.isDigit c = false) :
    clean_identifier s = s := by
  unfold clean_identifier
  have hmap : s.map (fun c => if isWordChar c then c else '_') = s := by
    have := List.map_congr_left (l := s)
      (f := fun c => if isWordChar c then c else '_') (g := id)
      (fun a ha => by simp [h a ha])
    simpa using this
  rw [hmap]
  cases hs : s with
  | nil => rfl
  | cons c rest =>
    dsimp only
    rw [if_neg (by simp [h0 c rest hs])]

/-- Cleaning is idempotent. -/
theorem clean_identifier_idem (s : Str) :
    clean_identifier (clean_identifier s) = clean_identifier s :=
  clean_identifier_fixpoint _ (clean_identifier_wordChars s)
    (clean_identifier_head s)

/-- Every replacement value of the reserved-word table is a fixed point
of the sanitizer. -/
theorem reserved_values_fixed :
    ∀ p ∈ RESERVED_WORDS, sanitize_identifier p.2 = p.2 := by decide

end U

/-- C5 (amended): the sanitizer is idempotent on every ASCII string
that either is itself a reserved word (case-insensitively, via
uppercasing) or whose cleaned form is not one.  Idempotence fails
exactly when cleaning manufactures a reserved word out of a
non-reserved input, as in the `"r-trig"` counterexample. -/
theorem claim_C5_amended (s : Str) (_hascii : ∀ c ∈ s, c.toNat < 128)
    (h : U.reservedGet (Py.upper s) ≠ none ∨
      U.reservedGet (Py.upper (U.clean_identifier s)) = none) :
    U.sanitize_identifier (U.sanitize_identifier s) =
      U.sanitize_identifier s := by
  cases hr : U.reservedGet (Py.upper s) with
  | some v =>
    have h1 : U.sanitize_identifier s = v := by
      unfold U.sanitize_identifier; rw [hr]
    rw [h1]
    have hmem : ∃ p ∈ U.RESERVED_WORDS, p.2 = v := by
      unfold U.reservedGet at hr
      rcases hfind : U.RESERVED_WORDS.find? (fun p => p.1 = Py.upper s) with
        _ | p
      · rw [hfind] at hr; cases hr
      · rw [hfind] at hr
        exact ⟨p, List.mem_of_find?_eq_some hfind, by simpa using hr⟩
    rcases hmem with ⟨p, hp, rfl⟩
    exact U.reserved_values_fixed p hp
  | none =>
    have h1 : U.sanitize_identifier s = U.clean_identifier s := by
      unfold U.sanitize_identifier; rw [hr]
    rw [h1]
    have h2 : U.reservedGet (Py.upper (U.clean_identifier s)) = none := by
      rcases h with h | h
      · exact absurd hr h
      · exact h
    unfold U.sanitize_identifier
    rw [h2]
    exact U.clean_identifier_idem s

/-- C5 (witness): idempotence at the ordinary identifier `"hello"`. -/
theorem claim_C5_witness :
    U.sanitize_identifier (U.sanitize_identifier (S "hello")) =
      U.sanitize_identifier (S "hello") :=
  claim_C5_amended (S "hello") (by decide) (Or.inr (by decide))

/-! ## Claim C7 — the fidelity score -/

/-- C7 (counterexample): the code keys components by name through
Python dicts, so duplicate names collapse.  On a project with two
controller tags both named `X` (`BOOL` then `INT`) and a converted
project holding `X : INT`, the spec formula (denominator 2, one matched
pair) yields `1/2`, but `calculate_fidelity_score` returns `1`. -/
theorem claim_C7_counterexample :
    IR.calculate_fidelity_score IR.ceOriginal IR.ceConverted = 1 ∧
    IR.specFidelityScore IR.ceOriginal IR.ceConverted = 1 / 2 ∧
    (1 : ℚ) ≠ 1 / 2 := by
  refine ⟨?_, ?_, by norm_num⟩
  · simp only [IR.calculate_fidelity_score, IR.ceOriginal, IR.ceConverted,
      IR.matchedCount, IR.dictKeys, IR.dictVal, List.map, List.filter,
      List.countP_cons, List.countP_nil, List.getLast?]
    norm_num
  · simp only [IR.specFidelityScore, IR.ceOriginal, IR.ceConverted,
      List.countP_cons, List.countP_nil, List.any]
    norm_num
    rw [if_neg (show ¬ S "BOOL" = S "INT" by decide)]
    norm_num

/-- Per-name matches never exceed the number of distinct names. -/
theorem IR.matchedCount_le {α : Type} (key : α → Str)
    (original converted : List α) (p : α → α → Bool) :
    IR.matchedCount key original converted p ≤
      (IR.dictKeys (original.map key)).length :=
  List.countP_le_length _

/-- C7 (amended): `calculate_fidelity_score` returns
`matched / total` where `total` counts the *distinct* tag names,
user-type names and program names of the original (per-name dicts,
later duplicates overwrite earlier ones), and a name is matched when
the converted project's entry of the same name agrees on base type and
scope (tags), member count (user types), or routine count (programs).
The result lies in `[0, 1]`, and it is `1` when `total = 0`. -/
theorem claim_C7_amended (original converted : IR.IRProject) :
    0 ≤ IR.calculate_fidelity_score original converted ∧
    IR.calculate_fidelity_score original converted ≤ 1 ∧
    ((IR.dictKeys (original.controller.tags.map IR.IRTag.name)).length +
      (IR.dictKeys (original.controller.data_types.map
        IR.IRDataType.name)).length +
      (IR.dictKeys (original.programs.map IR.IRProgram.name)).length = 0 →
      IR.calculate_fidelity_score original converted = 1) := by
  unfold IR.calculate_fidelity_score
  set tT := (IR.dictKeys (original.controller.tags.map IR.IRTag.name)).length
    with htT
  set dT := (IR.dictKeys (original.controller.data_types.map
    IR.IRDataType.name)).length with hdT
  set pT := (IR.dictKeys (original.programs.map IR.IRProgram.name)).length
    with hpT
  by_cases h0 : tT + dT + pT = 0
  · simp [h0]
  · have hmle : (IR.matchedCount IR.IRTag.name original.controller.tags
        converted.controller.tags (fun t t' =>
          t.data_type = t'.data_type ∧ t.scope = t'.scope) +
        IR.matchedCount IR.IRDataType.name original.controller.data_types
          converted.controller.data_types (fun d d' =>
            d.members.length = d'.members.length) +
        IR.matchedCount IR.IRProgram.name original.programs
          converted.programs (fun p p' =>
            p.routines.length = p'.routines.length) : ℚ) ≤
        ((tT + dT + pT : Nat) : ℚ) := by
      push_cast
      have h1 := IR.matchedCount_le IR.IRTag.name original.controller.tags
        converted.controller.tags (fun t t' =>
          decide (t.data_type = t'.data_type ∧ t.scope = t'.scope))
      have h2 := IR.matchedCount_le IR.IRDataType.name
        original.controller.data_types converted.controller.data_types
        (fun d d' => decide (d.members.length = d'.members.length))
      have h3 := IR.matchedCount_le IR.IRProgram.name original.programs
        converted.programs (fun p p' =>
          decide (p.routines.length = p'.routines.length))
      rw [htT, hdT, hpT]
      exact_mod_cast Nat.add_le_add (Nat.add_le_add h1 h2) h3
    have hpos : (0 : ℚ) < ((tT + dT + pT : Nat) : ℚ) := by
      exact_mod_cast Nat.pos_of_ne_zero h0
    refine ⟨?_, ?_, fun h => absurd h h0⟩
    · rw [if_neg h0]
      positivity
    · rw [if_neg h0]
      rw [div_le_one hpos]
      exact_mod_cast hmle

/-- C7 (witness): the amended statement applied to the counterexample
projects — the score is between 0 and 1 there. -/
theorem claim_C7_witness :
    0 ≤ IR.calculate_fidelity_score IR.ceOriginal IR.ceConverted ∧
    IR.calculate_fidelity_score IR.ceOriginal IR.ceConverted ≤ 1 :=
  ⟨(claim_C7_amended IR.ceOriginal IR.ceConverted).1,
   (claim_C7_amended IR.ceOriginal IR.ceConverted).2.1⟩

/-! ## Claim C8 — hex decoding of tag values -/

/-- C8 (counterexample): the decoder fires on *any* value delimited by
`'$` and `'` whose interior parses under `int(_, 16)`, not only on the
`$hh$hh…` shape: the literal `'$+1E'` (interior `+1E`, a signed hex
number, not hex-digit pairs) is stored as `"30"`, not preserved
verbatim. -/
theorem claim_C8_counterexample :
    U.decodeTagValue U.signLit = S "30" ∧ U.signLit ≠ S "30" := by
  constructor <;> decide

/-- C8 (amended): a value that starts with `'$` and ends with `'` has
its `$` signs stripped from the interior and the rest parsed as a
base-16 integer with CPython `int` semantics (optional whitespace,
sign, `0x` prefix, underscores between digits); when the parse succeeds
the decimal rendering is stored — in particular `'$00$00$00$1E'` is
stored as `"30"` — and when it fails the value is kept.  Every value
not delimited that way is preserved verbatim. -/
theorem claim_C8_amended :
    U.decodeTagValue U.hexLit = S "30" ∧
    (∀ v : Str, U.hexDelimited v = false → U.decodeTagValue v = v) ∧
    (∀ v : Str, Py.intHex? (Py.removeAll (Py.slice v 2 (-1)) '$') = none →
      U.decodeTagValue v = v) := by
  refine ⟨by decide, ?_, ?_⟩
  · intro v hv
    unfold U.decodeTagValue
    rw [if_neg]
    intro hcontra
    have htrue : U.hexDelimited v = true := by
      simp [U.hexDelimited, hcontra.1, hcontra.2]
    rw [htrue] at hv
    cases hv
  · intro v hv
    unfold U.decodeTagValue
    by_cases hd : Py.startsWith v (U.qc :: S "$") ∧ v.getLast? = some U.qc
    · rw [if_pos hd]
      dsimp only
      rw [hv]
    · rw [if_neg hd]

/-- C8 (witness): the amended statement applied to concrete values —
the scenario literal decodes to `"30"`, the undelimited value `"hello"`
and the delimited-but-unparsable value `'$zz'` are preserved. -/
theorem claim_C8_witness :
    U.decodeTagValue U.hexLit = S "30" ∧
    U.decodeTagValue (S "hello") = S "hello" ∧
    U.decodeTagValue (U.qc :: (S "$zz" ++ [U.qc])) =
      U.qc :: (S "$zz" ++ [U.qc]) :=
  ⟨claim_C8_amended.1,
   claim_C8_amended.2.1 (S "hello") (by decide),
   claim_C8_amended.2.2 (U.qc :: (S "$zz" ++ [U.qc])) (by decide)⟩

/-! ## Claim C10 — totality of the top-level translators -/

namespace LL

/-- The formatting loop is at a fixpoint on the malformed rung `x(`:
one body iteration maps the state `("x(", 0, 1)` to itself, so the
Python `while` loop never exits and `frtLoop` exhausts any fuel. -/
theorem frtLoop_x_diverges :
    ∀ n, frtLoop n (S "x(") 0 1 = none := by
  intro n
  induction n with
  | zero => rfl
  | succ n ih =>
    have hstep : frtStep (S "x(") 0 1 = (S "x(", 0, 1) := by decide
    rw [show frtLoop (n + 1) (S "x(") 0 1 = frtLoop n (S "x(") 0 1 from ?_, ih]
    rw [frtLoop]
    rw [if_neg (by decide)]
    rw [hstep]

end LL

/-- C10 (counterexample): `translate_ladder_to_st` is not total — the
`while` loop of `format_rung_text` never terminates on the input `x(`
(an unclosed parenthesis after a nonempty prefix), so no string (and no
error comment) is ever returned.  With any amount of fuel (here 100,
and the amended statement below proves it for every fuel), the embedded
loop is still running. -/
theorem claim_C10_counterexample :
    LL.translate_ladder_to_st 100 (S "x(") = none := by
  have hfmt : LL.format_rung_text 100 (S "x(") = none := by
    unfold LL.format_rung_text
    rw [show Py.removeAll (S "x(") ' ' = S "x(" from by decide]
    dsimp only
    rw [show Py.find (S "x(") '(' = 1 from by decide,
      LL.frtLoop_x_diverges 100]
  unfold LL.translate_ladder_to_st LL.process_rung
  rw [hfmt]
  rfl

/-- C10 (amended): `translate_fbd_to_st` returns a string for every
parsed element tree — falling back to `// No FBD content to translate`
when every sheet generates empty code — and `translate_ladder_to_st`
returns a string for every input on which the normalization loop of
`format_rung_text` terminates (no exception propagates; failures
surface as `// ERROR:` / `// Error` comment text).  But the ladder
translator is not total: on the input `x(` the normalization loop
repeats the same state forever, which a `try/except` cannot catch. -/
theorem claim_C10_amended :
    (∀ n, LL.translate_ladder_to_st n (S "x(") = none) ∧
    (∀ fuel (s formatted : Str),
      LL.format_rung_text fuel s = some formatted →
      LL.translate_ladder_to_st fuel s =
        some (LL.process_instruction_list
          (LL.process_rung_instructions formatted) [])) ∧
    (∀ sheets : List FBD.Sheet, ∃ out, FBD.translate_fbd_to_st sheets = out) ∧
    (∀ sheets : List FBD.Sheet,
      (∀ sh ∈ sheets, FBD.generateStCode sh = []) →
      FBD.translate_fbd_to_st sheets = S "// No FBD content to translate") := by
  have key : ∀ (l : List (Nat × FBD.Sheet)),
      (∀ p ∈ l, FBD.generateStCode p.2 = []) →
      l.foldr (fun p acc =>
        let code := Py.join (S "\n") (FBD.generateStCode p.2)
        if code ≠ [] then
          (S "// Sheet " ++ Py.intStr (p.1 + 1)) :: code :: acc
        else acc) [] = ([] : List Str) := by
    intro l
    induction l with
    | nil => intro hl; rfl
    | cons q t ih =>
      intro hl
      rw [List.foldr_cons]
      rw [ih (fun p hp => hl p (List.mem_cons_of_mem q hp))]
      have hq := hl q (List.mem_cons_self q t)
      dsimp only
      rw [hq]
      simp [Py.join, List.intercalate]
  refine ⟨?_, ?_, fun sheets => ⟨_, rfl⟩, ?_⟩
  · intro n
    have hfmt : LL.format_rung_text n (S "x(") = none := by
      unfold LL.format_rung_text
      rw [show Py.removeAll (S "x(") ' ' = S "x(" from by decide]
      dsimp only
      rw [show Py.find (S "x(") '(' = 1 from by decide,
        LL.frtLoop_x_diverges n]
    unfold LL.translate_ladder_to_st LL.process_rung
    rw [hfmt]
    rfl
  · intro fuel s formatted h
    unfold LL.translate_ladder_to_st LL.process_rung
    rw [h]
    rfl
  · intro sheets h
    have h2 : ∀ p ∈ sheets.enum, FBD.generateStCode p.2 = [] := by
      intro p hp
      refine h p.2 ?_
      have hmem : p.2 ∈ sheets.enum.map Prod.snd :=
        List.mem_map_of_mem Prod.snd hp
      simpa [List.enum_map_snd] using hmem
    unfold FBD.translate_fbd_to_st
    rw [key sheets.enum h2]

/-- C10 (witness): the conditional-totality part applied to the rung
`XIC(Start),XIO(Stop)OTE(Run)` with fuel 100, whose formatting loop
terminates. -/
theorem claim_C10_witness :
    LL.translate_ladder_to_st 100 (S "XIC(Start),XIO(Stop)OTE(Run)") =
      some (LL.process_instruction_list
        (LL.process_rung_instructions (S "XIC(Start);XIO(Stop)OTE(Run)")) []) :=
  claim_C10_amended.2.1 100 (S "XIC(Start),XIO(Stop)OTE(Run)")
    (S "XIC(Start);XIO(Stop)OTE(Run)") (by decide)

/-! ## Claim C4 — FBD execution order -/

namespace FBD

/-- Membership in the block map, as list membership of the id. -/
theorem isBlock_iff (sh : Sheet) (i : Str) :
    isBlock sh i = true ↔ i ∈ sh.blocks.map Prod.fst := by
  unfold isBlock
  rw [List.any_eq_true]
  constructor
  · rintro ⟨b, hb, heq⟩
    exact List.mem_map.mpr ⟨b, hb, by simpa using heq⟩
  · rintro h
    rcases List.mem_map.mp h with ⟨b, hb, rfl⟩
    exact ⟨b, hb, by simp⟩

/-- Both endpoints of a dependency edge are blocks. -/
theorem edge_isBlock {sh : Sheet} {a b : Str} (h : Edge sh a b) :
    isBlock sh a = true ∧ isBlock sh b = true := by
  unfold Edge deps at h
  rcases List.mem_map.mp (List.mem_dedup.mp h) with ⟨w, hw, rfl⟩
  have := List.of_mem_filter hw
  simp only [decide_eq_true_eq, Bool.and_eq_true] at this
  exact ⟨this.2.1, this.1 ▸ this.2.2⟩

/-- Positions in a prefix are unchanged by appending. -/
theorem pos_append_of_mem {l₁ : List Str} (l₂ : List Str) {a : Str}
    (h : a ∈ l₁) : pos (l₁ ++ l₂) a = pos l₁ a := by
  induction l₁ with
  | nil => cases h
  | cons x l ih =>
    by_cases hx : x = a
    · simp [pos, hx]
    · rcases List.mem_cons.mp h with rfl | hal
      · exact absurd rfl hx
      · simp [pos, hx, ih hal]

/-- Position of an absent element skips the whole prefix. -/
theorem pos_append_of_not_mem {l₁ : List Str} (l₂ : List Str) {a : Str}
    (h : a ∉ l₁) : pos (l₁ ++ l₂) a = l₁.length + pos l₂ a := by
  induction l₁ with
  | nil => simp
  | cons x l ih =>
    have hx : x ≠ a := fun hxa => h (hxa ▸ List.mem_cons_self x l)
    have hal : a ∉ l := fun hal => h (List.mem_cons_of_mem x hal)
    simp [pos, hx, ih hal]
    omega

/-- A present element sits strictly inside the list. -/
theorem pos_lt_length {l : List Str} {a : Str} (h : a ∈ l) :
    pos l a < l.length := by
  induction l with
  | nil => cases h
  | cons x l ih =>
    by_cases hx : x = a
    · simp [pos, hx]
    · rcases List.mem_cons.mp h with rfl | hal
      · exact absurd rfl hx
      · simp only [pos, if_neg hx, List.length_cons]
        exact Nat.succ_lt_succ (ih hal)

/-- Counting survivors of a stricter membership test: marking a fresh
present element strictly shrinks the count. -/
theorem countP_notMem_cons_lt {L temp : List Str} {b : Str}
    (hb : b ∈ L) (hnt : b ∉ temp) :
    L.countP (fun x => ¬ x ∈ (b :: temp)) <
      L.countP (fun x => ¬ x ∈ temp) := by
  induction L with
  | nil => cases hb
  | cons c l ih =>
    have hmono : l.countP (fun x => ¬ x ∈ (b :: temp)) ≤
        l.countP (fun x => ¬ x ∈ temp) := by
      refine List.countP_mono_left ?_
      intro x _ hx
      simp only [List.mem_cons, not_or, decide_eq_true_eq] at hx
      simpa using hx.2
    by_cases hc : c ∈ b :: temp
    · have h1 : List.countP (fun x => ¬ x ∈ (b :: temp)) (c :: l) =
          List.countP (fun x => ¬ x ∈ (b :: temp)) l := by
        simp only [List.countP_cons]
        have h0 : ¬ (c ∉ b :: temp) := fun h => h hc
        simp [h0]
        intro h
        rcases List.mem_cons.mp hc with h2 | h2
        · exact absurd h2 h
        · exact h2
      have h2 : List.countP (fun x => ¬ x ∈ temp) l ≤
          List.countP (fun x => ¬ x ∈ temp) (c :: l) := by
        rw [List.countP_cons]; omega
      rcases List.mem_cons.mp hb with hbc | hbl
      · have h3 : List.countP (fun x => ¬ x ∈ temp) (c :: l) =
            List.countP (fun x => ¬ x ∈ temp) l + 1 := by
          simp [List.countP_cons, hbc ▸ hnt]
        omega
      · have := ih hbl
        omega
    · have hct : c ∉ temp := fun h => hc (List.mem_cons_of_mem b h)
      have hbc : b ≠ c := fun h => hc (h ▸ List.mem_cons_self b temp)
      have hbl : b ∈ l := by
        rcases List.mem_cons.mp hb with h | h
        · exact absurd h hbc
        · exact h
      have h1 : List.countP (fun x => ¬ x ∈ (b :: temp)) (c :: l) =
          List.countP (fun x => ¬ x ∈ (b :: temp)) l + 1 := by
        simp [List.countP_cons]
        exact ⟨fun h => hbc h.symm, hct⟩
      have h2 : List.countP (fun x => ¬ x ∈ temp) (c :: l) =
          List.countP (fun x => ¬ x ∈ temp) l + 1 := by
        simp [List.countP_cons, hct]
      have := ih hbl
      omega

/-- Marking a fresh block strictly shrinks the unvisited count. -/
theorem unvisitedCount_cons_lt {sh : Sheet} {temp : List Str} {b : Str}
    (hb : b ∈ sh.blocks.map Prod.fst) (hnt : b ∉ temp) :
    unvisitedCount sh (b :: temp) < unvisitedCount sh temp :=
  countP_notMem_cons_lt hb hnt

/-- Appending a node whose dependencies are all present keeps an order
good. -/
theorem GoodOrder.append {sh : Sheet} {l : List Str} {b : Str}
    (hg : GoodOrder sh l) (hnb : b ∉ l)
    (hdeps : ∀ a, Edge sh a b → a ∈ l) :
    GoodOrder sh (l ++ [b]) := by
  intro x hx a hax
  rcases List.mem_append.mp hx with hxl | hxb
  · rcases hg x hxl a hax with ⟨hal, hidx⟩
    refine ⟨List.mem_append.mpr (Or.inl hal), ?_⟩
    rw [pos_append_of_mem _ hal, pos_append_of_mem _ hxl]
    exact hidx
  · have hxb : x = b := by simpa using hxb
    subst hxb
    have hal := hdeps a hax
    refine ⟨List.mem_append.mpr (Or.inl hal), ?_⟩
    rw [pos_append_of_mem _ hal, pos_append_of_not_mem _ hnb]
    have := pos_lt_length hal
    omega

end FBD

namespace FBD

/-- Specification of the dependency loop (the `foldl` inside `visit`),
given the specification of `visit` at the same fuel. -/
theorem visitList_spec (sh : Sheet) (fuel : Nat)
    (hvisit : ∀ temp b st, unvisitedCount sh temp < fuel →
      isBlock sh b = true →
      (∀ t ∈ temp, Relation.TransGen (Edge sh) b t) →
      Inv sh st →
      Inv sh (visit sh fuel temp b st) ∧
        st.order <+: (visit sh fuel temp b st).order ∧
        (∀ x ∈ (visit sh fuel temp b st).order,
          x ∈ st.order ∨ x ∉ temp) ∧
        b ∈ (visit sh fuel temp b st).order) :
    ∀ (ds temp : List Str) (st : DfsSt), unvisitedCount sh temp < fuel →
      (∀ d ∈ ds, ∀ t ∈ temp, Relation.TransGen (Edge sh) d t) →
      Inv sh st →
      Inv sh (ds.foldl (fun s d =>
          if isBlock sh d then visit sh fuel temp d s else s) st) ∧
        st.order <+: (ds.foldl (fun s d =>
          if isBlock sh d then visit sh fuel temp d s else s) st).order ∧
        (∀ x ∈ (ds.foldl (fun s d =>
          if isBlock sh d then visit sh fuel temp d s else s) st).order,
          x ∈ st.order ∨ x ∉ temp) ∧
        (∀ d ∈ ds, isBlock sh d = true →
          d ∈ (ds.foldl (fun s d =>
            if isBlock sh d then visit sh fuel temp d s else s) st).order) := by
  intro ds
  induction ds with
  | nil =>
    intro temp st hfuel hreach hinv
    rw [List.foldl_nil]
    refine ⟨hinv, List.prefix_refl _, fun x hx => Or.inl hx, ?_⟩
    intro d hd
    cases hd
  | cons d ds ih =>
    intro temp st hfuel hreach hinv
    rw [List.foldl_cons]
    by_cases hbd : isBlock sh d = true
    · rw [if_pos hbd]
      obtain ⟨hinv1, hpre1, hnew1, hmem1⟩ :=
        hvisit temp d st hfuel hbd
          (fun t ht => hreach d (List.mem_cons_self d ds) t ht) hinv
      obtain ⟨hinv2, hpre2, hnew2, hmem2⟩ :=
        ih temp (visit sh fuel temp d st) hfuel
          (fun e he t ht => hreach e (List.mem_cons_of_mem d he) t ht) hinv1
      refine ⟨hinv2, hpre1.trans hpre2, ?_, ?_⟩
      · intro x hx
        rcases hnew2 x hx with hx1 | hx1
        · exact hnew1 x hx1
        · exact Or.inr hx1
      · intro e he hbe
        rcases List.mem_cons.mp he with rfl | he
        · exact hpre2.subset hmem1
        · exact hmem2 e he hbe
    · rw [if_neg hbd]
      obtain ⟨hinv2, hpre2, hnew2, hmem2⟩ :=
        ih temp st hfuel
          (fun e he t ht => hreach e (List.mem_cons_of_mem d he) t ht) hinv
      refine ⟨hinv2, hpre2, hnew2, ?_⟩
      intro e he hbe
      rcases List.mem_cons.mp he with rfl | he
      · exact absurd hbe hbd
      · exact hmem2 e he hbe

/-- Specification of `visit` on an acyclic sheet: the invariant is
preserved, the order only grows, no temporarily marked node is added,
and the visited block ends up in the order. -/
theorem visit_spec (sh : Sheet) (hac : Acyclic sh) :
    ∀ fuel temp b st, unvisitedCount sh temp < fuel →
      isBlock sh b = true →
      (∀ t ∈ temp, Relation.TransGen (Edge sh) b t) →
      Inv sh st →
      Inv sh (visit sh fuel temp b st) ∧
        st.order <+: (visit sh fuel temp b st).order ∧
        (∀ x ∈ (visit sh fuel temp b st).order,
          x ∈ st.order ∨ x ∉ temp) ∧
        b ∈ (visit sh fuel temp b st).order := by
  intro fuel
  induction fuel with
  | zero =>
    intro temp b st hfuel
    exact absurd hfuel (by omega)
  | succ fuel ih =>
    intro temp b st hfuel hb hreach hinv
    have hbtemp : b ∉ temp := fun hbt => hac b (hreach b hbt)
    simp only [visit]
    rw [if_neg hbtemp]
    by_cases hbv : b ∈ st.visited
    · rw [if_pos hbv]
      have hbo : b ∈ st.order := hinv.1 ▸ hbv
      exact ⟨hinv, List.prefix_refl _, fun x hx => Or.inl hx, hbo⟩
    · rw [if_neg hbv]
      have hfuel' : unvisitedCount sh (b :: temp) < fuel := by
        have := unvisitedCount_cons_lt ((isBlock_iff sh b).mp hb) hbtemp
        omega
      have hreach' : ∀ d ∈ deps sh b, ∀ t ∈ b :: temp,
          Relation.TransGen (Edge sh) d t := by
        intro d hd t ht
        have hdb : Relation.TransGen (Edge sh) d b :=
          Relation.TransGen.single hd
        rcases List.mem_cons.mp ht with rfl | ht
        · exact hdb
        · exact hdb.trans (hreach t ht)
      obtain ⟨hinv1, hpre1, hnew1, hmem1⟩ :=
        visitList_spec sh fuel (fun temp' b' st' => ih temp' b' st')
          (deps sh b) (b :: temp) st hfuel' hreach' hinv
      set st1 := (deps sh b).foldl (fun s d =>
        if isBlock sh d then visit sh fuel (b :: temp) d s else s) st
        with hst1
      have hbo1 : b ∉ st1.order := by
        intro hbo
        rcases hnew1 b hbo with h | h
        · exact hbv (hinv.1 ▸ h)
        · exact h (List.mem_cons_self b temp)
      refine ⟨⟨?_, ?_, ?_, ?_⟩, ?_, ?_, ?_⟩
      · simp only [hinv1.1]
      · simp [List.nodup_append, hinv1.2.1, hbo1]
      · intro x hx
        rcases List.mem_append.mp hx with hx | hx
        · exact hinv1.2.2.1 x hx
        · have hxb : x = b := by simpa using hx
          subst hxb; exact hb
      · refine GoodOrder.append hinv1.2.2.2 hbo1 ?_
        intro a ha
        exact hmem1 a ha (edge_isBlock ha).1
      · exact hpre1.trans (List.prefix_append _ _)
      · intro x hx
        rcases List.mem_append.mp hx with hx | hx
        · rcases hnew1 x hx with h | h
          · exact Or.inl h
          · exact Or.inr (fun hxt => h (List.mem_cons_of_mem b hxt))
        · have hxb : x = b := by simpa using hx
          subst hxb
          exact Or.inr hbtemp
      · exact List.mem_append.mpr (Or.inr (by simp))

end FBD

namespace FBD

/-- Every block of a sheet ends up in the execution order, and the
order satisfies the DFS invariant, on acyclic sheets. -/
theorem executionOrder_spec (sh : Sheet) (hac : Acyclic sh) :
    GoodOrder sh (executionOrder sh) ∧
      ∀ b ∈ sh.blocks.map Prod.fst, b ∈ executionOrder sh := by
  have hmain : ∀ (bl : List (Str × Str)) (st : DfsSt),
      (∀ p ∈ bl, isBlock sh p.1 = true) → Inv sh st →
      Inv sh (bl.foldl (fun st b =>
        if b.1 ∈ st.visited then st
        else visit sh (sh.blocks.length + 1) [] b.1 st) st) ∧
      st.order <+: (bl.foldl (fun st b =>
        if b.1 ∈ st.visited then st
        else visit sh (sh.blocks.length + 1) [] b.1 st) st).order ∧
      ∀ p ∈ bl, p.1 ∈ (bl.foldl (fun st b =>
        if b.1 ∈ st.visited then st
        else visit sh (sh.blocks.length + 1) [] b.1 st) st).order := by
    intro bl
    induction bl with
    | nil =>
      intro st hbl hinv
      exact ⟨hinv, List.prefix_refl _, fun p hp => absurd hp (by simp)⟩
    | cons p bl ih =>
      intro st hbl hinv
      have hfuel : unvisitedCount sh [] < sh.blocks.length + 1 := by
        unfold unvisitedCount
        have := List.countP_le_length
          (l := sh.blocks.map Prod.fst) (p := fun x => ¬ x ∈ ([] : List Str))
        simp only [List.length_map] at this
        omega
      have hb : isBlock sh p.1 = true := hbl p (List.mem_cons_self p bl)
      rw [List.foldl_cons]
      by_cases hv : p.1 ∈ st.visited
      · rw [if_pos hv]
        obtain ⟨hinv2, hpre2, hmem2⟩ :=
          ih st (fun q hq => hbl q (List.mem_cons_of_mem p hq)) hinv
        refine ⟨hinv2, hpre2, ?_⟩
        intro q hq
        rcases List.mem_cons.mp hq with rfl | hq
        · exact hpre2.subset (hinv.1 ▸ hv)
        · exact hmem2 q hq
      · rw [if_neg hv]
        obtain ⟨hinv1, hpre1, _, hmem1⟩ :=
          visit_spec sh hac (sh.blocks.length + 1) [] p.1 st hfuel hb
            (by intro t ht; cases ht) hinv
        obtain ⟨hinv2, hpre2, hmem2⟩ :=
          ih _ (fun q hq => hbl q (List.mem_cons_of_mem p hq)) hinv1
        refine ⟨hinv2, hpre1.trans hpre2, ?_⟩
        intro q hq
        rcases List.mem_cons.mp hq with rfl | hq
        · exact hpre2.subset hmem1
        · exact hmem2 q hq
  have hinv0 : Inv sh { visited := [], order := [] } := by
    refine ⟨rfl, List.nodup_nil, fun x hx => absurd hx (by simp), ?_⟩
    intro b hb
    cases hb
  obtain ⟨hinv, _, hmem⟩ := hmain sh.blocks { visited := [], order := [] }
    (fun p hp => (isBlock_iff sh p.1).mpr (List.mem_map.mpr ⟨p, hp, rfl⟩))
    hinv0
  refine ⟨hinv.2.2.2, ?_⟩
  intro b hb
  rcases List.mem_map.mp hb with ⟨p, hp, rfl⟩
  exact hmem p hp

/-- A wire whose two endpoints are both blocks is a dependency edge. -/
theorem wire_edge {sh : Sheet} {w : Wire} (hw : w ∈ sh.wires)
    (h1 : isBlock sh w.fromId = true) (h2 : isBlock sh w.toId = true) :
    Edge sh w.fromId w.toId := by
  unfold Edge deps
  refine List.mem_dedup.mpr (List.mem_map.mpr ⟨w, ?_, rfl⟩)
  refine List.mem_filter.mpr ⟨hw, ?_⟩
  simp [h1, h2]

/-- Without block-to-block wires each block has no dependencies. -/
theorem deps_eq_nil_of_no_wires {sh : Sheet}
    (hw : ∀ w ∈ sh.wires,
      ¬ (isBlock sh w.fromId = true ∧ isBlock sh w.toId = true)) :
    ∀ b, deps sh b = [] := by
  intro b
  unfold deps
  have hfil : sh.wires.filter (fun w =>
      w.toId = b ∧ isBlock sh w.fromId ∧ isBlock sh w.toId) = [] := by
    refine List.filter_eq_nil_iff.mpr ?_
    intro w hmem
    simp only [Bool.and_eq_true, decide_eq_true_eq, not_and]
    intro _ hfrom hto
    exact hw w hmem ⟨hfrom, hto⟩
  rw [hfil]
  rfl

/-- Without dependencies, `visit` just appends its argument (when
unvisited). -/
theorem visit_no_deps {sh : Sheet} (hdeps : ∀ b, deps sh b = [])
    (fuel : Nat) (b : Str) (st : DfsSt) (hbv : b ∉ st.visited) :
    visit sh (fuel + 1) [] b st =
      { visited := st.visited ++ [b], order := st.order ++ [b] } := by
  simp only [visit]
  rw [if_neg (by simp : ¬ b ∈ ([] : List Str)), if_neg hbv, hdeps b]
  rfl

end FBD

namespace FBD

/-- Without block-to-block wires, the fold emits the blocks in
insertion order. -/
theorem fold_no_deps (sh : Sheet) (hdeps : ∀ b, deps sh b = []) :
    ∀ (bl : List (Str × Str)) (st : DfsSt),
      st.visited = st.order →
      (∀ p ∈ bl, p.1 ∉ st.order) →
      (bl.map Prod.fst).Nodup →
      (bl.foldl (fun st b =>
        if b.1 ∈ st.visited then st
        else visit sh (sh.blocks.length + 1) [] b.1 st) st).order =
        st.order ++ bl.map Prod.fst := by
  intro bl
  induction bl with
  | nil => intro st _ _ _; simp
  | cons p bl ih =>
    intro st hvo hnew hnd
    rw [List.foldl_cons]
    rw [if_neg (fun h => hnew p (List.mem_cons_self p bl) (hvo ▸ h))]
    rw [visit_no_deps hdeps sh.blocks.length p.1 st
      (fun h => hnew p (List.mem_cons_self p bl) (hvo ▸ h))]
    have hnd' : (bl.map Prod.fst).Nodup := (List.nodup_cons.mp hnd).2
    have hp1 : p.1 ∉ bl.map Prod.fst := (List.nodup_cons.mp hnd).1
    have hnew1 : ∀ q ∈ bl, q.1 ∉ st.order ++ [p.1] := by
      intro q hq hmem
      rcases List.mem_append.mp hmem with h | h
      · exact hnew q (List.mem_cons_of_mem p hq) h
      · have hqp : q.1 = p.1 := by simpa using h
        exact hp1 (hqp ▸ List.mem_map.mpr ⟨q, hq, rfl⟩)
    have hih := ih ⟨st.visited ++ [p.1], st.order ++ [p.1]⟩
      (by simp [hvo]) hnew1 hnd'
    rw [hih]
    simp

end FBD

/-- C4 (counterexample): on the sheet with blocks inserted as `A`, `B`,
`C` and a single wire `C → A`, the emitted call order is `C`, `A`, `B`:
the DFS pulls `C` (a dependency of `A`) ahead of `B`, so `B` and `C` —
two instances unrelated by any wire — are emitted in the opposite of
their insertion order. -/
theorem claim_C4_counterexample :
    FBD.executionOrder FBD.ceSheet = [S "C", S "A", S "B"] ∧
    FBD.ceSheet.blocks.map Prod.fst = [S "A", S "B", S "C"] ∧
    (∀ w ∈ FBD.ceSheet.wires, w.fromId ≠ S "B" ∧ w.toId ≠ S "B") ∧
    FBD.Precedes (FBD.ceSheet.blocks.map Prod.fst) (S "B") (S "C") ∧
    FBD.Precedes (FBD.executionOrder FBD.ceSheet) (S "C") (S "B") := by
  refine ⟨by decide, by decide, by decide, ?_, ?_⟩ <;>
    · refine ⟨by decide, by decide, by decide⟩

/-- Every dependency edge of the counterexample sheet is the single
wire `C → A`. -/
theorem ceSheet_edge {a b : Str} (h : FBD.Edge FBD.ceSheet a b) :
    a = S "C" ∧ b = S "A" := by
  unfold FBD.Edge at h
  by_cases hb : b = S "A"
  · subst hb
    have hd : FBD.deps FBD.ceSheet (S "A") = [S "C"] := by decide
    rw [hd] at h
    exact ⟨by simpa using h, rfl⟩
  · exfalso
    have hb2 : ¬ (S "A" = b) := fun hh => hb hh.symm
    have hd : FBD.deps FBD.ceSheet b = [] := by
      simp [FBD.deps, FBD.ceSheet, FBD.isBlock, hb2]
    rw [hd] at h
    cases h

/-- The counterexample sheet is acyclic. -/
theorem ceSheet_acyclic : FBD.Acyclic FBD.ceSheet := by
  have htg : ∀ x y, Relation.TransGen (FBD.Edge FBD.ceSheet) x y →
      x = S "C" ∧ y = S "A" := by
    intro x y h
    induction h with
    | single h => exact ceSheet_edge h
    | tail _ hzy ih =>
      have h1 := ceSheet_edge hzy
      rw [ih.2] at h1
      exact absurd h1.1 (by decide)
  intro x hx
  have := htg x x hx
  rw [this.2] at this
  exact absurd this.1 (by decide)

/-- C4 (amended): on every sheet whose block-to-block wire graph is
acyclic, for every wire between two function-block instances the call
for the source instance is emitted before the call for the destination
instance; and when a sheet has *no* block-to-block wires at all, the
instances are emitted exactly in insertion order.  (Pairs of instances
that are merely unrelated to each other can still be reordered, as the
counterexample shows.) -/
theorem claim_C4_amended :
    (∀ sh : FBD.Sheet, FBD.Acyclic sh → ∀ w ∈ sh.wires,
      FBD.isBlock sh w.fromId = true → FBD.isBlock sh w.toId = true →
      FBD.Precedes (FBD.executionOrder sh) w.fromId w.toId) ∧
    (∀ sh : FBD.Sheet,
      (∀ w ∈ sh.wires, ¬ (FBD.isBlock sh w.fromId = true ∧
        FBD.isBlock sh w.toId = true)) →
      (sh.blocks.map Prod.fst).Nodup →
      FBD.executionOrder sh = sh.blocks.map Prod.fst) := by
  constructor
  · intro sh hac w hw h1 h2
    obtain ⟨hgood, hall⟩ := FBD.executionOrder_spec sh hac
    have hedge := FBD.wire_edge hw h1 h2
    have hbto : w.toId ∈ FBD.executionOrder sh :=
      hall w.toId ((FBD.isBlock_iff sh w.toId).mp h2)
    obtain ⟨hmem, hlt⟩ := hgood w.toId hbto w.fromId hedge
    exact ⟨hmem, hbto, hlt⟩
  · intro sh hw hnd
    have hdeps := FBD.deps_eq_nil_of_no_wires hw
    have := FBD.fold_no_deps sh hdeps sh.blocks
      { visited := [], order := [] } rfl
      (fun p _ hmem => by cases hmem) hnd
    unfold FBD.executionOrder
    rw [this]
    simp

/-- C4 (witness): the amended statement applied to the counterexample
sheet (its single wire `C → A` yields `C` before `A`) and to a two-block
sheet without wires (emitted in insertion order `A`, `B`). -/
theorem claim_C4_witness :
    FBD.Precedes (FBD.executionOrder FBD.ceSheet) (S "C") (S "A") ∧
    FBD.executionOrder FBD.ceSheetNoWires =
      [S "A", S "B"] :=
  ⟨claim_C4_amended.1 FBD.ceSheet ceSheet_acyclic
      { fromId := S "C", toId := S "A", fromParam := some (S "out"),
        toParam := some (S "inp") } (by decide) (by decide) (by decide),
   by
    have := claim_C4_amended.2 FBD.ceSheetNoWires
      (by intro w hw; cases hw) (by decide)
    simpa [FBD.ceSheetNoWires] using this⟩

/-! ## Claim C3 — supporting lemmas on the Python string primitives -/

namespace Py

/-- Removing an absent character is the identity. -/
theorem removeAll_eq_self {l : Str} {a : Char} (h : ∀ c ∈ l, c ≠ a) :
    removeAll l a = l := by
  unfold removeAll
  induction l with
  | nil => rfl
  | cons c rest ih =>
    rw [List.filter_cons]
    rw [if_pos (by simpa using h c (List.mem_cons_self c rest))]
    rw [ih (fun x hx => h x (List.mem_cons_of_mem c hx))]

/-- Replacing an absent character is the identity. -/
theorem replaceChar_eq_self {l : Str} {a b : Char} (h : ∀ c ∈ l, c ≠ a) :
    replaceChar l a b = l := by
  unfold replaceChar
  have := List.map_congr_left (l := l)
    (f := fun c => if c = a then b else c) (g := id)
    (fun c hc => by simp [h c hc])
  simpa using this

/-- Index search walks over a prefix without the sought character. -/
theorem findIdx_append {l₁ l₂ : Str} {c : Char} (h : ∀ x ∈ l₁, x ≠ c) :
    findIdx (l₁ ++ l₂) c = (findIdx l₂ c).map (· + l₁.length) := by
  induction l₁ with
  | nil => simp
  | cons x rest ih =>
    rw [List.cons_append, findIdx]
    rw [if_neg (by simpa using h x (List.mem_cons_self x rest))]
    rw [ih (fun z hz => h z (List.mem_cons_of_mem x hz))]
    cases findIdx l₂ c
    · simp
    · simp
      omega

/-- Index search fails on a string without the sought character. -/
theorem findIdx_eq_none {l : Str} {c : Char} (h : ∀ x ∈ l, x ≠ c) :
    findIdx l c = none := by
  have := @findIdx_append l ([] : Str) c h
  simpa using this

/-- Python `find` of the first occurrence after a clean prefix. -/
theorem find_append_cons (l₁ l₂ : Str) (c : Char) (h : ∀ x ∈ l₁, x ≠ c) :
    find (l₁ ++ c :: l₂) c = (l₁.length : Int) := by
  unfold find
  rw [findIdx_append h]
  rw [show findIdx (c :: l₂) c = some 0 from by simp [findIdx]]
  simp

/-- Python `find` misses entirely on a clean string. -/
theorem find_eq_neg_one {l : Str} {c : Char} (h : ∀ x ∈ l, x ≠ c) :
    find l c = -1 := by
  unfold find
  rw [findIdx_eq_none h]

/-- A nonnegative slice endpoint clamps to `min`. -/
theorem sliceIndex_natCast (n k : Nat) :
    sliceIndex n (k : Int) = min k n := by
  unfold sliceIndex
  rw [if_neg (by omega)]
  simp

/-- Source `s[:|A|]` on `A ++ B` is `A`. -/
theorem sliceTo_app (A B : Str) : sliceTo (A ++ B) (A.length : Int) = A := by
  unfold sliceTo
  rw [sliceIndex_natCast]
  simp

/-- Source `s[|A|:]` on `A ++ B` is `B`. -/
theorem sliceFrom_app (A B : Str) :
    sliceFrom (A ++ B) (A.length : Int) = B := by
  unfold sliceFrom
  rw [sliceIndex_natCast]
  simp

/-- Source `s[|A|:|A|+|B|]` on `A ++ B ++ C` is `B`. -/
theorem slice_app (A B C : Str) :
    slice (A ++ B ++ C) (A.length : Int) ((A.length + B.length : Nat) : Int) =
      B := by
  unfold slice
  rw [sliceIndex_natCast, sliceIndex_natCast]
  have h1 : min (A.length + B.length) (A ++ B ++ C).length =
      A.length + B.length := by simp
  have h2 : min A.length (A ++ B ++ C).length = A.length := by simp
  rw [h1, h2]
  rw [List.append_assoc, List.take_append_eq_append_take]
  simp [List.take_append_eq_append_take, List.drop_append_eq_append_drop]

/-- Splitting a string without the separator keeps it whole. -/
theorem splitKeep_not_mem {l : Str} {a : Char} (h : a ∉ l) :
    splitKeep l a = [l] := by
  induction l with
  | nil => rfl
  | cons c rest ih =>
    have hc : c ≠ a := fun h2 => h (by rw [h2]; exact List.mem_cons_self a rest)
    have hrest : a ∉ rest := fun hm => h (List.mem_cons_of_mem c hm)
    rw [splitKeep, ih hrest]
    simp [hc]

/-- The split of any string is nonempty. -/
theorem splitKeep_ne_nil (l : Str) (a : Char) : splitKeep l a ≠ [] := by
  cases l with
  | nil => simp [splitKeep]
  | cons c rest =>
    rw [splitKeep]
    rcases splitKeep rest a with _ | ⟨hh, tt⟩ <;>
      by_cases hc : c = a <;> simp [hc]

/-- Splitting walks over a separator-free prefix. -/
theorem splitKeep_append {x rest : Str} {a : Char} (h : a ∉ x) :
    splitKeep (x ++ a :: rest) a = x :: splitKeep rest a := by
  induction x with
  | nil =>
    rcases hsk : splitKeep rest a with _ | ⟨hh, tt⟩
    · exact absurd hsk (splitKeep_ne_nil rest a)
    · simp [splitKeep, hsk]
  | cons c xrest ih =>
    have hc : c ≠ a := fun hc => h (hc ▸ List.mem_cons_self c xrest)
    have hx : a ∉ xrest := fun hmem => h (List.mem_cons_of_mem c hmem)
    rw [List.cons_append, splitKeep, ih hx]
    simp [hc]

/-- Splitting undoes a comma join of comma-free nonempty pieces. -/
theorem splitKeep_intercalate {ps : List Str} {a : Char}
    (hne : ps ≠ []) (h : ∀ p ∈ ps, a ∉ p) :
    splitKeep (List.intercalate [a] ps) a = ps := by
  induction ps with
  | nil => exact absurd rfl hne
  | cons p rest ih =>
    cases rest with
    | nil =>
      rw [show List.intercalate [a] [p] = p from by simp [List.intercalate]]
      exact splitKeep_not_mem (h p (List.mem_cons_self p []))
    | cons q rest2 =>
      rw [show List.intercalate [a] (p :: q :: rest2) =
        p ++ a :: List.intercalate [a] (q :: rest2) from rfl]
      rw [splitKeep_append (h p (List.mem_cons_self p (q :: rest2)))]
      rw [ih (by simp) (fun r hr => h r (List.mem_cons_of_mem p hr))]

end Py

namespace Py

/-- Stripping is the identity on whitespace-free strings. -/
theorem strip_eq_self {l : Str} (h : ∀ c ∈ l, ¬ isWs c = true) :
    strip l = l := by
  have h1 : ∀ (m : Str), (∀ c ∈ m, ¬ isWs c = true) →
      m.dropWhile isWs = m := by
    intro m hm
    cases m with
    | nil => rfl
    | cons c mm =>
      rw [List.dropWhile_cons,
        if_neg (by simpa using hm c (List.mem_cons_self c mm))]
  unfold strip
  rw [h1 l h, h1 l.reverse (fun c hc => h c (List.mem_reverse.mp hc)),
    List.reverse_reverse]

/-- Whitespace splitting of the empty string. -/
theorem splitWs_nil : splitWs [] = [] := rfl

/-- Whitespace splitting peels off a leading whitespace-free token. -/
theorem splitWs_append {x rest : Str} (hx : x ≠ [])
    (hws : ∀ c ∈ x, ¬ isWs c = true) :
    splitWs (x ++ ' ' :: rest) = x :: splitWs rest := by
  unfold splitWs
  rw [List.map_append]
  have hmapx : x.map (fun c => if isWs c then ' ' else c) = x := by
    have := List.map_congr_left (l := x)
      (f := fun c => if isWs c then ' ' else c) (g := id)
      (fun c hc => by simp [hws c hc])
    simpa using this
  rw [hmapx]
  rw [show (' ' :: rest).map (fun c => if isWs c then ' ' else c) =
    ' ' :: rest.map (fun c => if isWs c then ' ' else c) from by
      simp [isWs]]
  have hsp : ' ' ∉ x := by
    intro hmem
    have := hws ' ' hmem
    simp [isWs] at this
  rw [splitKeep_append hsp]
  rw [List.filter_cons, if_pos (by simpa using hx)]

end Py

namespace LL

/-- Characters of a plain name are not whitespace and differ from each
structural character. -/
theorem plainChar_spec {c : Char} (h : plainChar c = true) :
    ¬ Py.isWs c = true ∧ c ≠ '(' ∧ c ≠ ')' ∧ c ≠ '[' ∧ c ≠ ']' ∧
      c ≠ '<' ∧ c ≠ '>' ∧ c ≠ ',' ∧ c ≠ ';' := by
  unfold plainChar at h
  simp only [Bool.and_eq_true, decide_eq_true_eq, not_or] at h
  obtain ⟨⟨h1, h2, h3, h4, h5, h6, h7, h8⟩, h9⟩ := h
  exact ⟨by simpa using h9, h1, h2, h3, h4, h5, h6, h7, h8⟩

/-- Classification of the characters of a rendered call sequence. -/
theorem renderCalls_chars {cs : List (Str × Str)}
    (h : ∀ c ∈ cs, NameOk c.1 ∧ InnerOk c.2) :
    ∀ ch ∈ renderCalls cs,
      ch = '(' ∨ ch = ')' ∨ ch = ',' ∨ plainChar ch = true := by
  induction cs with
  | nil => intro ch hch; cases hch
  | cons c rest ih =>
    intro ch hch
    rw [renderCalls, List.map_cons, List.flatten_cons] at hch
    rcases List.mem_append.mp hch with hch | hch
    · unfold renderCall at hch
      rcases List.mem_append.mp hch with hch | hch
      · exact Or.inr (Or.inr (Or.inr
          ((h c (List.mem_cons_self c rest)).1.2 ch hch))
        )
      · rcases List.mem_cons.mp hch with rfl | hch
        · exact Or.inl rfl
        · rcases List.mem_append.mp hch with hch | hch
          · rcases (h c (List.mem_cons_self c rest)).2.2 ch hch with hp | hp
            · exact Or.inr (Or.inr (Or.inr hp))
            · exact Or.inr (Or.inr (Or.inl hp))
          · have : ch = ')' := by simpa using hch
            exact Or.inr (Or.inl this)
    · exact ih (fun d hd => h d (List.mem_cons_of_mem c hd)) ch hch

/-- A rendered call sequence contains no whitespace and none of the
bracket or semicolon structural characters. -/
theorem renderCalls_no_special {cs : List (Str × Str)}
    (h : ∀ c ∈ cs, NameOk c.1 ∧ InnerOk c.2) :
    ∀ ch ∈ renderCalls cs,
      ch ≠ ' ' ∧ ¬ Py.isWs ch = true ∧ ch ≠ '<' ∧ ch ≠ '>' ∧ ch ≠ ';' := by
  intro ch hch
  rcases renderCalls_chars h ch hch with rfl | rfl | rfl | hp
  · refine ⟨by decide, by decide, by decide, by decide, by decide⟩
  · refine ⟨by decide, by decide, by decide, by decide, by decide⟩
  · refine ⟨by decide, by decide, by decide, by decide, by decide⟩
  · obtain ⟨hws, _, _, _, _, hlt, hgt, _, hsemi⟩ := plainChar_spec hp
    refine ⟨?_, hws, hlt, hgt, hsemi⟩
    intro hsp
    exact hws (by simp [hsp, Py.isWs])

end LL

namespace Py

/-- Slice-to at an index given as the prefix length. -/
theorem sliceTo_app2 (A B : Str) {i : Int} (hi : i = (A.length : Int)) :
    sliceTo (A ++ B) i = A := by
  subst hi; exact sliceTo_app A B

/-- Slice-from at an index given as the prefix length. -/
theorem sliceFrom_app2 (A B : Str) {i : Int} (hi : i = (A.length : Int)) :
    sliceFrom (A ++ B) i = B := by
  subst hi; exact sliceFrom_app A B

/-- Two-sided slice with both endpoints given as prefix lengths. -/
theorem slice_app2 (A B C : Str) {i j : Int} (hi : i = (A.length : Int))
    (hj : j = ((A.length + B.length : Nat) : Int)) :
    slice (A ++ B ++ C) i j = B := by
  subst hi; subst hj; exact slice_app A B C

end Py

namespace LL

/-- A rendered call sequence prefixed by a closing parenthesis always
ends in a closing parenthesis. -/
theorem renderCalls_shape :
    ∀ (rem : List (Str × Str)) (u : Str),
      ∃ Y : Str, u ++ ')' :: renderCalls rem = Y ++ [')'] ∧
        Y.length = u.length + (renderCalls rem).length := by
  intro rem
  induction rem with
  | nil =>
    intro u
    exact ⟨u, by simp [renderCalls], by simp [renderCalls]⟩
  | cons c rem ih =>
    intro u
    obtain ⟨Y, hY, hlen⟩ := ih (u ++ ')' :: (c.1 ++ '(' :: c.2))
    refine ⟨Y, ?_, ?_⟩
    · rw [← hY]
      simp [renderCalls, renderCall]
    · rw [hlen]
      simp [renderCalls, renderCall]
      omega

/-- One full pass of the `format_rung_text` loop over well-formed
rendered calls: the text is left unchanged and the final `start` lands
on the last closing parenthesis. -/
theorem frtLoop_calls :
    ∀ (rem : List (Str × Str)) (fuel : Nat) (u : Str),
      rem.length < fuel →
      (∀ c ∈ rem, NameOk c.1 ∧ InnerOk c.2) →
      frtLoop fuel (u ++ ')' :: renderCalls rem) (u.length : Int)
          (nextOffset u rem) =
        some (u ++ ')' :: renderCalls rem,
          ((u.length + (renderCalls rem).length : Nat) : Int)) := by
  intro rem
  induction rem with
  | nil =>
    intro fuel u hfuel hwf
    cases fuel with
    | zero => omega
    | succ F =>
      have h0 : nextOffset u ([] : List (Str × Str)) = -1 := rfl
      rw [frtLoop, if_pos h0]
      norm_num [renderCalls]
  | cons c rem ih =>
    intro fuel u hfuel hwf
    obtain ⟨n, p⟩ := c
    cases fuel with
    | zero => omega
    | succ F =>
      obtain ⟨⟨hn_ne, hn_pl⟩, hp_ne, hp_pl⟩ :=
        hwf (n, p) (List.mem_cons_self (n, p) rem)
      -- the string, decomposed around the current call
      have hf : u ++ ')' :: renderCalls ((n, p) :: rem) =
          u ++ (')' :: n) ++ ('(' :: (p ++ ')' :: renderCalls rem)) := by
        simp [renderCalls, renderCall]
      have hoff : nextOffset u ((n, p) :: rem) =
          (((u ++ (')' :: n)).length : Nat) : Int) := by
        simp [nextOffset]
        omega
      have hOffNe : nextOffset u ((n, p) :: rem) ≠ -1 := by
        rw [hoff]; omega
      rw [frtLoop, if_neg hOffNe]
      -- compute the loop body
      have hstep : frtStep (u ++ ')' :: renderCalls ((n, p) :: rem))
          (u.length : Int) (nextOffset u ((n, p) :: rem)) =
          (u ++ ')' :: renderCalls ((n, p) :: rem),
            ((((u ++ ')' :: n ++ '(' :: p).length : Nat)) : Int),
            nextOffset (u ++ ')' :: n ++ '(' :: p) rem) := by
        unfold frtStep
        dsimp only
        have e1 : Py.sliceTo (u ++ ')' :: renderCalls ((n, p) :: rem))
            (u.length : Int) = u := by
          rw [hf, List.append_assoc]
          exact Py.sliceTo_app2 u _ rfl
        have e2 : Py.slice (u ++ ')' :: renderCalls ((n, p) :: rem))
            (u.length : Int) (nextOffset u ((n, p) :: rem)) = ')' :: n := by
          rw [hf, hoff]
          refine Py.slice_app2 u (')' :: n) _ rfl ?_
          simp
        have e3 : Py.sliceFrom (u ++ ')' :: renderCalls ((n, p) :: rem))
            (nextOffset u ((n, p) :: rem)) =
            '(' :: (p ++ ')' :: renderCalls rem) := by
          rw [hf, hoff]
          exact Py.sliceFrom_app2 _ _ rfl
        rw [e1, e2, e3]
        have e4 : ('(' :: (p ++ ')' :: renderCalls rem) : Str) =
            Py.sliceFrom (u ++ ')' :: renderCalls ((n, p) :: rem))
              (nextOffset u ((n, p) :: rem)) := e3.symm
        have e5 : (')' :: n).map (fun ch =>
            if ch = ',' then ';' else if ch = '[' then '<'
            else if ch = ']' then '>' else ch) = ')' :: n := by
          have := List.map_congr_left (l := ')' :: n)
            (f := fun ch => if ch = ',' then ';' else if ch = '[' then '<'
              else if ch = ']' then '>' else ch) (g := id) ?_
          · simpa using this
          · intro ch hch
            rcases List.mem_cons.mp hch with rfl | hch
            · decide
            · obtain ⟨_, _, _, h3, h4, _, _, h7, _⟩ :=
                plainChar_spec (hn_pl ch hch)
              simp [h3, h4, h7]
        rw [e5]
        have hback : u ++ ')' :: n ++ '(' :: (p ++ ')' :: renderCalls rem) =
            u ++ ')' :: renderCalls ((n, p) :: rem) := by
          simp [renderCalls, renderCall]
        rw [hback]
        have e6 : Py.sliceFrom (u ++ ')' :: renderCalls ((n, p) :: rem))
            (nextOffset u ((n, p) :: rem)) =
            ('(' :: p) ++ ')' :: renderCalls rem := by
          rw [e3]; simp
        rw [e6]
        have e7 : Py.find (('(' :: p) ++ ')' :: renderCalls rem) ')' =
            ((('(' :: p).length : Nat) : Int) := by
          refine Py.find_append_cons _ _ _ ?_
          intro x hx
          rcases List.mem_cons.mp hx with rfl | hx
          · decide
          · rcases hp_pl x hx with hpl | rfl
            · exact (plainChar_spec hpl).2.2.1
            · decide
        rw [e7]
        have e8 : ((('(' :: p).length : Nat) : Int) +
            nextOffset u ((n, p) :: rem) =
            ((((u ++ ')' :: n ++ '(' :: p).length : Nat)) : Int) := by
          rw [hoff]
          simp
          omega
        rw [e8]
        have e9 : Py.sliceFrom (u ++ ')' :: renderCalls ((n, p) :: rem))
            ((((u ++ ')' :: n ++ '(' :: p).length : Nat)) : Int) =
            ')' :: renderCalls rem := by
          have hf2 : u ++ ')' :: renderCalls ((n, p) :: rem) =
              (u ++ ')' :: n ++ '(' :: p) ++ (')' :: renderCalls rem) := by
            simp [renderCalls, renderCall]
          rw [hf2]
          exact Py.sliceFrom_app2 _ _ rfl
        rw [e9]
        cases rem with
        | nil =>
          have e10 : Py.find (')' :: renderCalls ([] : List (Str × Str))) '('
              = -1 := by
            refine Py.find_eq_neg_one ?_
            intro x hx
            rcases List.mem_cons.mp hx with rfl | hx
            · decide
            · simp [renderCalls] at hx
          rw [e10]
          simp [nextOffset]
        | cons c2 rem2 =>
          obtain ⟨n2, p2⟩ := c2
          obtain ⟨⟨hn2_ne, hn2_pl⟩, _, _⟩ :=
            hwf (n2, p2) (List.mem_cons_of_mem (n, p)
              (List.mem_cons_self (n2, p2) rem2))
          have e10 : Py.find (')' :: renderCalls ((n2, p2) :: rem2)) '(' =
              (((')' :: n2).length : Nat) : Int) := by
            have hsh : ')' :: renderCalls ((n2, p2) :: rem2) =
                (')' :: n2) ++ '(' :: (p2 ++ ')' :: renderCalls rem2) := by
              simp [renderCalls, renderCall]
            rw [hsh]
            refine Py.find_append_cons _ _ _ ?_
            intro x hx
            rcases List.mem_cons.mp hx with rfl | hx
            · decide
            · exact (plainChar_spec (hn2_pl x hx)).2.1
          rw [e10]
          rw [if_pos (show (((')' :: n2).length : Nat) : Int) ≠ -1 by omega)]
          have e11 : ((((')' :: n2).length : Nat)) : Int) +
              ((((u ++ ')' :: n ++ '(' :: p).length : Nat)) : Int) =
              nextOffset (u ++ ')' :: n ++ '(' :: p) ((n2, p2) :: rem2) := by
            simp [nextOffset]
            omega
          rw [e11]
      rw [hstep]
      dsimp only
      have hu2 : u ++ ')' :: renderCalls ((n, p) :: rem) =
          (u ++ ')' :: n ++ '(' :: p) ++ ')' :: renderCalls rem := by
        simp [renderCalls, renderCall]
      rw [hu2]
      have hmain := ih F (u ++ ')' :: n ++ '(' :: p)
        (by simp at hfuel; omega)
        (fun c hc => hwf c (List.mem_cons_of_mem _ hc))
      rw [hmain]
      have hlen : u.length + (renderCalls ((n, p) :: rem)).length =
          (u ++ ')' :: n ++ '(' :: p).length + (renderCalls rem).length := by
        simp [renderCalls, renderCall]
        omega
      rw [hlen]

end LL

namespace LL

/-- On a well-formed rendered call sequence, `format_rung_text`
terminates and returns its input unchanged. -/
theorem format_renderCalls (calls : List (Str × Str)) (fuel : Nat)
    (hne : calls ≠ []) (hfuel : calls.length < fuel)
    (hwf : ∀ c ∈ calls, NameOk c.1 ∧ InnerOk c.2) :
    format_rung_text fuel (renderCalls calls) = some (renderCalls calls) := by
  obtain _ | ⟨⟨n, p⟩, rest⟩ := calls
  · exact absurd rfl hne
  cases fuel with
  | zero => omega
  | succ F =>
    obtain ⟨⟨hn_ne, hn_pl⟩, hp_ne, hp_pl⟩ :=
      hwf (n, p) (List.mem_cons_self (n, p) rest)
    have hsh1 : renderCalls ((n, p) :: rest) =
        n ++ '(' :: (p ++ ')' :: renderCalls rest) := by
      simp [renderCalls, renderCall]
    have hf2 : renderCalls ((n, p) :: rest) =
        (n ++ '(' :: p) ++ ')' :: renderCalls rest := by
      simp [renderCalls, renderCall]
    unfold format_rung_text
    dsimp only
    have hns : Py.removeAll (renderCalls ((n, p) :: rest)) ' ' =
        renderCalls ((n, p) :: rest) :=
      Py.removeAll_eq_self (fun c hc => (renderCalls_no_special hwf c hc).1)
    rw [hns]
    have hfind : Py.find (renderCalls ((n, p) :: rest)) '(' =
        (n.length : Int) := by
      rw [hsh1]
      exact Py.find_append_cons _ _ _
        (fun x hx => (plainChar_spec (hn_pl x hx)).2.1)
    rw [hfind]
    rw [frtLoop, if_neg (show ¬ ((n.length : Nat) : Int) = -1 by omega)]
    have hstep0 : frtStep (renderCalls ((n, p) :: rest)) 0 (n.length : Int) =
        (renderCalls ((n, p) :: rest),
          ((((n ++ '(' :: p).length : Nat)) : Int),
          nextOffset (n ++ '(' :: p) rest) := by
      unfold frtStep
      dsimp only
      have e1 : Py.sliceTo (renderCalls ((n, p) :: rest)) 0 = [] := by
        have := Py.sliceTo_app2 ([] : Str) (renderCalls ((n, p) :: rest))
          (i := 0) (by simp)
        simpa using this
      have e2 : Py.slice (renderCalls ((n, p) :: rest)) 0 (n.length : Int)
          = n := by
        have := Py.slice_app2 ([] : Str) n
          ('(' :: (p ++ ')' :: renderCalls rest))
          (i := 0) (j := (n.length : Int)) (by simp) (by simp)
        rw [hsh1]
        simpa using this
      have e3 : Py.sliceFrom (renderCalls ((n, p) :: rest)) (n.length : Int) =
          '(' :: (p ++ ')' :: renderCalls rest) := by
        rw [hsh1]
        exact Py.sliceFrom_app2 _ _ rfl
      rw [e1, e2, e3]
      have e4 : n.map (fun ch =>
          if ch = ',' then ';' else if ch = '[' then '<'
          else if ch = ']' then '>' else ch) = n := by
        have := List.map_congr_left (l := n)
          (f := fun ch => if ch = ',' then ';' else if ch = '[' then '<'
            else if ch = ']' then '>' else ch) (g := id) ?_
        · simpa using this
        · intro ch hch
          obtain ⟨_, _, _, h3, h4, _, _, h7, _⟩ :=
            plainChar_spec (hn_pl ch hch)
          simp [h3, h4, h7]
      rw [e4]
      have hback : ([] : Str) ++ n ++ '(' :: (p ++ ')' :: renderCalls rest) =
          renderCalls ((n, p) :: rest) := by
        simp [renderCalls, renderCall]
      rw [hback]
      have e5 : Py.sliceFrom (renderCalls ((n, p) :: rest)) (n.length : Int) =
          ('(' :: p) ++ ')' :: renderCalls rest := by
        rw [e3]; simp
      rw [e5]
      have e6 : Py.find (('(' :: p) ++ ')' :: renderCalls rest) ')' =
          ((('(' :: p).length : Nat) : Int) := by
        refine Py.find_append_cons _ _ _ ?_
        intro x hx
        rcases List.mem_cons.mp hx with rfl | hx
        · decide
        · rcases hp_pl x hx with hpl | rfl
          · exact (plainChar_spec hpl).2.2.1
          · decide
      rw [e6]
      have e7 : ((('(' :: p).length : Nat) : Int) + ((n.length : Nat) : Int) =
          ((((n ++ '(' :: p).length : Nat)) : Int) := by
        simp
        omega
      rw [e7]
      have e8 : Py.sliceFrom (renderCalls ((n, p) :: rest))
          ((((n ++ '(' :: p).length : Nat)) : Int) =
          ')' :: renderCalls rest := by
        rw [hf2]
        exact Py.sliceFrom_app2 _ _ rfl
      rw [e8]
      cases rest with
      | nil =>
        have e9 : Py.find (')' :: renderCalls ([] : List (Str × Str))) '('
            = -1 := by
          refine Py.find_eq_neg_one ?_
          intro x hx
          rcases List.mem_cons.mp hx with rfl | hx
          · decide
          · simp [renderCalls] at hx
        rw [e9]
        simp [nextOffset]
      | cons c2 rest2 =>
        obtain ⟨n2, p2⟩ := c2
        obtain ⟨⟨hn2_ne, hn2_pl⟩, _, _⟩ :=
          hwf (n2, p2) (List.mem_cons_of_mem (n, p)
            (List.mem_cons_self (n2, p2) rest2))
        have e9 : Py.find (')' :: renderCalls ((n2, p2) :: rest2)) '(' =
            (((')' :: n2).length : Nat) : Int) := by
          have hsh : ')' :: renderCalls ((n2, p2) :: rest2) =
              (')' :: n2) ++ '(' :: (p2 ++ ')' :: renderCalls rest2) := by
            simp [renderCalls, renderCall]
          rw [hsh]
          refine Py.find_append_cons _ _ _ ?_
          intro x hx
          rcases List.mem_cons.mp hx with rfl | hx
          · decide
          · exact (plainChar_spec (hn2_pl x hx)).2.1
        rw [e9]
        rw [if_pos (show (((')' :: n2).length : Nat) : Int) ≠ -1 by omega)]
        have e10 : ((((')' :: n2).length : Nat)) : Int) +
            ((((n ++ '(' :: p).length : Nat)) : Int) =
            nextOffset (n ++ '(' :: p) ((n2, p2) :: rest2) := by
          simp [nextOffset]
          omega
        rw [e10]
    rw [hstep0]
    dsimp only
    have hmain := frtLoop_calls rest F (n ++ '(' :: p)
      (by simp at hfuel; omega)
      (fun c hc => hwf c (List.mem_cons_of_mem _ hc))
    rw [hf2, hmain]
    dsimp only
    obtain ⟨Y, hY, hYlen⟩ := renderCalls_shape rest (n ++ '(' :: p)
    rw [show (n ++ '(' :: p) ++ ')' :: renderCalls rest =
        Y ++ [')'] from by rw [← hY]]
    rw [if_pos (show ((((n ++ '(' :: p).length +
        (renderCalls rest).length : Nat)) : Int) ≠ -1 by omega)]
    have s1 : Py.sliceTo (Y ++ [')'])
        ((((n ++ '(' :: p).length + (renderCalls rest).length : Nat)) : Int) =
        Y :=
      Py.sliceTo_app2 Y [')'] (by rw [hYlen])
    have s2 : Py.sliceFrom (Y ++ [')'])
        ((((n ++ '(' :: p).length + (renderCalls rest).length : Nat)) : Int) =
        [')'] :=
      Py.sliceFrom_app2 Y [')'] (by rw [hYlen])
    rw [s1, s2]
    rw [show Py.replaceChar ([')'] : Str) ']' '>' = [')'] from by decide]

end LL

namespace Py

/-- Replacement distributes over concatenation. -/
theorem replaceChar_append (A B : Str) (a b : Char) :
    replaceChar (A ++ B) a b = replaceChar A a b ++ replaceChar B a b := by
  simp [replaceChar]

/-- Replacement steps through a cons cell. -/
theorem replaceChar_cons (x : Char) (B : Str) (a b : Char) :
    replaceChar (x :: B) a b = (if x = a then b else x) :: replaceChar B a b := by
  simp [replaceChar]

end Py

namespace LL

/-- A plain character is not a blank. -/
theorem plainChar_ne_space {c : Char} (h : plainChar c = true) : c ≠ ' ' := by
  intro heq
  exact (plainChar_spec h).1 (by rw [heq]; decide)

/-- Replacing both parentheses by blanks turns a rendered call sequence
into blank-separated name and parameter tokens. -/
theorem mapParens_renderCalls (calls : List (Str × Str))
    (hwf : ∀ c ∈ calls, NameOk c.1 ∧ InnerOk c.2) :
    Py.replaceChar (Py.replaceChar (renderCalls calls) '(' ' ') ')' ' ' =
      calls.flatMap (fun c => c.1 ++ ' ' :: (c.2 ++ [' '])) := by
  induction calls with
  | nil => rfl
  | cons c rest ih =>
    obtain ⟨n, p⟩ := c
    obtain ⟨⟨hn_ne, hn_pl⟩, hp_ne, hp_pl⟩ :=
      hwf (n, p) (List.mem_cons_self (n, p) rest)
    have hn1 : Py.replaceChar n '(' ' ' = n :=
      Py.replaceChar_eq_self (fun c hc => (plainChar_spec (hn_pl c hc)).2.1)
    have hn2 : Py.replaceChar n ')' ' ' = n :=
      Py.replaceChar_eq_self (fun c hc => (plainChar_spec (hn_pl c hc)).2.2.1)
    have hp1 : Py.replaceChar p '(' ' ' = p := by
      refine Py.replaceChar_eq_self ?_
      intro c hc
      rcases hp_pl c hc with h | rfl
      · exact (plainChar_spec h).2.1
      · decide
    have hp2 : Py.replaceChar p ')' ' ' = p := by
      refine Py.replaceChar_eq_self ?_
      intro c hc
      rcases hp_pl c hc with h | rfl
      · exact (plainChar_spec h).2.2.1
      · decide
    have inner1 : Py.replaceChar (renderCalls ((n, p) :: rest)) '(' ' ' =
        n ++ ' ' :: (p ++ ')' :: Py.replaceChar (renderCalls rest) '(' ' ') := by
      rw [show renderCalls ((n, p) :: rest) =
          n ++ '(' :: (p ++ ')' :: renderCalls rest) from by
        simp [renderCalls, renderCall]]
      rw [Py.replaceChar_append, Py.replaceChar_cons, Py.replaceChar_append,
        Py.replaceChar_cons]
      rw [hn1, hp1]
      rw [if_pos (show ('(' : Char) = '(' from rfl),
        if_neg (show ¬ ((')' : Char) = '(') from by decide)]
    have inner2 : Py.replaceChar
        (n ++ ' ' :: (p ++ ')' :: Py.replaceChar (renderCalls rest) '(' ' '))
        ')' ' ' =
        n ++ ' ' :: (p ++ ' ' ::
          Py.replaceChar (Py.replaceChar (renderCalls rest) '(' ' ') ')' ' ') := by
      rw [Py.replaceChar_append, Py.replaceChar_cons, Py.replaceChar_append,
        Py.replaceChar_cons]
      rw [hn2, hp2]
      rw [if_neg (show ¬ ((' ' : Char) = ')') from by decide),
        if_pos (show (')' : Char) = ')' from rfl)]
    rw [inner1, inner2, ih (fun c hc => hwf c (List.mem_cons_of_mem _ hc))]
    simp

/-- Whitespace splitting of the blank-separated token stream recovers
the name and parameter tokens. -/
theorem splitWs_tokens (calls : List (Str × Str))
    (hwf : ∀ c ∈ calls, NameOk c.1 ∧ InnerOk c.2) :
    Py.splitWs (calls.flatMap (fun c => c.1 ++ ' ' :: (c.2 ++ [' ']))) =
      calls.flatMap (fun c => [c.1, c.2]) := by
  induction calls with
  | nil => rfl
  | cons c rest ih =>
    obtain ⟨n, p⟩ := c
    obtain ⟨⟨hn_ne, hn_pl⟩, hp_ne, hp_pl⟩ :=
      hwf (n, p) (List.mem_cons_self (n, p) rest)
    have hr : ((n, p) :: rest).flatMap (fun c => c.1 ++ ' ' :: (c.2 ++ [' ']))
        = n ++ ' ' :: (p ++ ' ' ::
          rest.flatMap (fun c => c.1 ++ ' ' :: (c.2 ++ [' ']))) := by
      simp
    rw [hr]
    rw [Py.splitWs_append hn_ne
      (fun c hc => (plainChar_spec (hn_pl c hc)).1)]
    rw [Py.splitWs_append hp_ne ?_]
    · rw [ih (fun c hc => hwf c (List.mem_cons_of_mem _ hc))]
      simp
    · intro c hc
      rcases hp_pl c hc with h | rfl
      · exact (plainChar_spec h).1
      · decide

/-- Re-pairing the flattened token stream recovers the call pairs. -/
theorem pairUp_flatMap :
    ∀ (cs : List (Str × Str)), pairUp (cs.flatMap (fun c => [c.1, c.2])) = cs := by
  intro cs
  induction cs with
  | nil => rfl
  | cons c rest ih =>
    obtain ⟨n, p⟩ := c
    simpa [pairUp] using ih

/-- Source `LLFunc.__init__` splits a comma-joined parameter text back
into the original parameters. -/
theorem mkLLFunc_join (m : Str) (ps : List Str) (hne : ps ≠ [])
    (hps : ∀ p ∈ ps, p ≠ [] ∧ ∀ ch ∈ p, plainChar ch = true) :
    mkLLFunc m (Py.join (S ",") ps) = ⟨m, ps⟩ := by
  have hjne : Py.join (S ",") ps ≠ [] := by
    obtain _ | ⟨p0, ps2⟩ := ps
    · exact absurd rfl hne
    · have hp0 := (hps p0 (List.mem_cons_self p0 ps2)).1
      cases ps2 with
      | nil => simpa [Py.join, List.intercalate] using hp0
      | cons q l =>
        simp [Py.join, List.intercalate, hp0]
  unfold mkLLFunc
  rw [if_neg hjne]
  rw [show (S "," : Str) = [','] from by decide]
  rw [show Py.join ([','] : Str) ps = List.intercalate [','] ps from rfl]
  rw [Py.splitKeep_intercalate hne ?_]
  · have hstrip : ps.map Py.strip = ps := by
      have := List.map_congr_left (l := ps) (f := Py.strip) (g := id) ?_
      · simpa using this
      · intro q hq
        exact Py.strip_eq_self
          (fun ch hch => (plainChar_spec ((hps q hq).2 ch hch)).1)
    rw [hstrip]
    rw [List.filter_eq_self.mpr
      (fun q hq => by simpa using (hps q hq).1)]
  · intro q hq hmem
    obtain ⟨-, -, -, -, -, -, -, hcomma, -⟩ :=
      plainChar_spec ((hps q hq).2 ',' hmem)
    exact hcomma rfl

/-- Source `LLFunc.__init__` on a comma-free parameter text keeps it as
the single parameter. -/
theorem mkLLFunc_single (m y : Str) (hy : y ≠ [])
    (hpl : ∀ ch ∈ y, plainChar ch = true) :
    mkLLFunc m y = ⟨m, [y]⟩ := by
  unfold mkLLFunc
  rw [if_neg hy]
  rw [Py.splitKeep_not_mem (fun hmem =>
    (plainChar_spec (hpl ',' hmem)).2.2.2.2.2.2.2.1 rfl)]
  rw [show ([y] : List Str).map Py.strip = [Py.strip y] from rfl]
  rw [Py.strip_eq_self (fun ch hch => (plainChar_spec (hpl ch hch)).1)]
  rw [List.filter_eq_self.mpr (fun q hq => by
    simp at hq
    simpa [hq] using hy)]

/-- Source `process_sequential_function_calls` on a rendered sequence of
at least two calls parses back exactly those calls. -/
theorem psfc_renderCalls (c0 c1 : Str × Str) (rest : List (Str × Str))
    (hwf : ∀ c ∈ c0 :: c1 :: rest, NameOk c.1 ∧ InnerOk c.2) :
    process_sequential_function_calls (renderCalls (c0 :: c1 :: rest)) =
      (c0 :: c1 :: rest).map (fun np => mkLLFunc np.1 np.2) := by
  unfold process_sequential_function_calls
  dsimp only
  rw [Py.removeAll_eq_self
    (fun c hc => (renderCalls_no_special hwf c hc).1)]
  rw [show ∀ l : Str, List.map (fun c => if c = '(' then ' ' else c) l =
      Py.replaceChar l '(' ' ' from fun l => rfl]
  rw [show ∀ l : Str, List.map (fun c => if c = ')' then ' ' else c) l =
      Py.replaceChar l ')' ' ' from fun l => rfl]
  rw [mapParens_renderCalls _ hwf, splitWs_tokens _ hwf]
  have hflat : (c0 :: c1 :: rest).flatMap (fun c => [c.1, c.2]) =
      c0.1 :: c0.2 :: ((c1 :: rest).flatMap (fun c => [c.1, c.2])) := by
    simp
  rw [hflat]
  dsimp only
  rw [← hflat, pairUp_flatMap]
  refine List.map_congr_left ?_
  intro np hnp
  obtain ⟨⟨hn_ne, hn_pl⟩, -⟩ := hwf np hnp
  rw [Py.removeAll_eq_self (fun c hc =>
    (plainChar_spec (hn_pl c hc)).2.2.2.2.2.2.2.1)]
  rw [Py.removeAll_eq_self (fun c hc => plainChar_ne_space (hn_pl c hc))]

end LL

namespace LL

/-- The statement loop on `OTE` with pending conditionals and no outer
indentation emits the guarded set/reset block and clears the state. -/
theorem procF_ote (o : Str) (cfl : List LLFunc) (y : Str) (hc : cfl ≠ []) :
    procF ⟨o, [], cfl⟩ ⟨S "OTE", [y]⟩ =
      ⟨o ++ S "IF (" ++ innerGuard cfl ++ S ") THEN\n\t" ++ y ++
        S " := 1;\nELSE\n\t" ++ y ++ S " := 0;\nEND_IF;\n", [], []⟩ := by
  unfold procF
  rw [if_neg (show ¬ (LLFunc.conditional ⟨S "OTE", [y]⟩ = true) from by
    rw [show LLFunc.conditional ⟨S "OTE", [y]⟩ = false from rfl]; simp)]
  have r1 : regularImpl (S "OTE") [y] = y ++ S " := 1;" := by
    unfold regularImpl
    rw [if_neg (show ¬ ((S "OTE" : Str) = S "COP") from by decide),
        if_neg (show ¬ ((S "OTE" : Str) = S "CLR") from by decide),
        if_neg (show ¬ ((S "OTE" : Str) = S "GSV") from by decide),
        if_neg (show ¬ ((S "OTE" : Str) = S "JSR") from by decide),
        if_neg (show ¬ ((S "OTE" : Str) = S "MOV") from by decide),
        if_neg (show ¬ ((S "OTE" : Str) = S "MSG") from by decide),
        if_neg (show ¬ ((S "OTE" : Str) = S "MUL") from by decide),
        if_neg (show ¬ ((S "OTE" : Str) = S "NOP") from by decide),
        if_pos (show (S "OTE" : Str) = S "OTE" from rfl)]
    show y ++ S " := " ++ S "1" ++ S ";" = y ++ S " := 1;"
    simp only [List.append_assoc]
    exact congrArg (fun r => y ++ r) (by decide)
  have r2 : ote [y] false = y ++ S " := 0;" := by
    show y ++ S " := " ++ S "0" ++ S ";" = y ++ S " := 0;"
    simp only [List.append_assoc]
    exact congrArg (fun r => y ++ r) (by decide)
  have r3 : REGULAR_FUNCTIONS.contains (S "OTE") = true := rfl
  have hmem : S "OTE" ∈ REGULAR_FUNCTIONS := by decide
  have r4 : Py.removeFirst (S "\t") '\t' = [] := rfl
  have mA : ∀ r : Str, S ") THEN\n" ++ (S "\t" ++ r) = S ") THEN\n\t" ++ r := by
    intro r
    rw [← List.append_assoc,
      show S ") THEN\n" ++ S "\t" = S ") THEN\n\t" from by decide]
  have mB : ∀ r : Str,
      S " := 1;" ++ (S "\n" ++ (S "ELSE\n" ++ (S "\t" ++ r))) =
        S " := 1;\nELSE\n\t" ++ r := by
    intro r
    simp only [← List.append_assoc]
    rw [show ((S " := 1;" ++ S "\n") ++ S "ELSE\n") ++ S "\t" =
      S " := 1;\nELSE\n\t" from by decide]
  have mC : S " := 0;" ++ (S "\n" ++ S "END_IF;\n") = S " := 0;\nEND_IF;\n" := by
    decide
  simp [hc, r1, r2, r3, r4, hmem]
  rw [mA, mB, mC]

end LL

namespace LL

/-- The statement loop buffers conditional instructions without output. -/
theorem foldl_procF_conds (fs : List LLFunc) :
    ∀ (st : EmitSt), (∀ f ∈ fs, f.conditional = true) →
      fs.foldl procF st = ⟨st.out, st.tab, st.cfl ++ fs⟩ := by
  induction fs with
  | nil => intro st h; simp
  | cons f rest ih =>
    intro st h
    rw [List.foldl_cons]
    rw [show procF st f = { st with cfl := st.cfl ++ [f] } from by
      unfold procF; rw [if_pos (h f (List.mem_cons_self f rest))]]
    rw [ih _ (fun g hg => h g (List.mem_cons_of_mem f hg))]
    simp

/-- Every condition mnemonic yields a conditional instruction. -/
theorem conditional_of_mem {m : Str} (ps : List Str)
    (h : m ∈ CONDITIONAL_FUNCTIONS) :
    LLFunc.conditional ⟨m, ps⟩ = true := by
  fin_cases h <;> rfl

/-- Membership in the condition mnemonics, as the `contains` check. -/
theorem contains_of_mem_cond {m : Str} (h : m ∈ CONDITIONAL_FUNCTIONS) :
    CONDITIONAL_FUNCTIONS.contains m = true := by
  fin_cases h <;> rfl

/-- Every condition mnemonic is a well-formed call name. -/
theorem nameOk_of_mem_cond {m : Str} (h : m ∈ CONDITIONAL_FUNCTIONS) :
    NameOk m := by
  fin_cases h <;> exact ⟨by decide, by decide⟩

/-- The comma-join of the parameters of a call steps through its head. -/
theorem join_comma_cons_cons (p q : Str) (l : List Str) :
    Py.join (S ",") (p :: q :: l) =
      p ++ ',' :: Py.join (S ",") (q :: l) := by
  simp [Py.join, List.intercalate]
  rfl

/-- A comma-join of nonempty parameters is nonempty. -/
theorem join_comma_ne_nil {ps : List Str} (hne : ps ≠ [])
    (h : ∀ p ∈ ps, p ≠ []) :
    Py.join (S ",") ps ≠ [] := by
  obtain _ | ⟨p0, ps2⟩ := ps
  · exact absurd rfl hne
  · have hp0 := h p0 (List.mem_cons_self p0 ps2)
    cases ps2 with
    | nil => simpa [Py.join, List.intercalate] using hp0
    | cons q l =>
      rw [join_comma_cons_cons]
      simp [hp0]

/-- Characters of a comma-join come from a parameter or are commas. -/
theorem mem_join_comma {ps : List Str} {ch : Char}
    (h : ch ∈ Py.join (S ",") ps) :
    ch = ',' ∨ ∃ p ∈ ps, ch ∈ p := by
  induction ps with
  | nil => simp [Py.join, List.intercalate] at h
  | cons p rest ih =>
    cases rest with
    | nil =>
      simp [Py.join, List.intercalate] at h
      exact Or.inr ⟨p, List.mem_cons_self p [], h⟩
    | cons q l =>
      rw [join_comma_cons_cons] at h
      rcases List.mem_append.mp h with hp | hql
      · exact Or.inr ⟨p, List.mem_cons_self p (q :: l), hp⟩
      · rcases List.mem_cons.mp hql with rfl | hql
        · exact Or.inl rfl
        · rcases ih hql with hcomma | ⟨r, hr, hchr⟩
          · exact Or.inl hcomma
          · exact Or.inr ⟨r, List.mem_cons_of_mem p hr, hchr⟩

/-- The comma-join of well-formed parameters is a well-formed call
interior. -/
theorem innerOk_join_comma {ps : List Str} (hne : ps ≠ [])
    (h : ∀ p ∈ ps, p ≠ [] ∧ ∀ ch ∈ p, plainChar ch = true) :
    InnerOk (Py.join (S ",") ps) := by
  refine ⟨join_comma_ne_nil hne (fun p hp => (h p hp).1), ?_⟩
  intro ch hch
  rcases mem_join_comma hch with rfl | ⟨p, hp, hchp⟩
  · exact Or.inr rfl
  · exact Or.inl ((h p hp).2 ch hchp)

/-- The inner guard over buffered condition instructions is the
`" AND "`-join of their boolean translations. -/
theorem innerGuard_conds (cs : List (Str × List Str))
    (h : ∀ c ∈ cs, c.1 ∈ CONDITIONAL_FUNCTIONS) :
    innerGuard (cs.map (fun c => (⟨c.1, c.2⟩ : LLFunc))) =
      Py.join (S " AND ") (cs.map (fun c => condImpl c.1 c.2)) := by
  unfold innerGuard
  rw [List.map_map]
  refine congrArg (Py.join (S " AND ")) ?_
  refine List.map_congr_left ?_
  intro c hc
  have := contains_of_mem_cond (h c hc)
  simp only [Function.comp_apply]
  rw [if_pos this]

/-- Source `process_instruction_list` on a single statement group. -/
theorem pil_single (g : List LLFunc) :
    process_instruction_list [[g]] [] =
      (g.foldl procF ⟨[], [], []⟩).out := rfl

/-- Source `process_rung_instructions` on a rendered call sequence of at
least two calls yields one disjunct group holding the whole sequence. -/
theorem pri_renderCalls (c0 c1 : Str × Str) (rest : List (Str × Str))
    (hwf : ∀ c ∈ c0 :: c1 :: rest, NameOk c.1 ∧ InnerOk c.2) :
    process_rung_instructions (renderCalls (c0 :: c1 :: rest)) =
      [[process_sequential_function_calls (renderCalls (c0 :: c1 :: rest))]] := by
  unfold process_rung_instructions
  dsimp only
  rw [Py.removeAll_eq_self
    (fun c hc => (renderCalls_no_special hwf c hc).1)]
  rw [Py.replaceChar_eq_self
    (fun c hc => (renderCalls_no_special hwf c hc).2.2.1)]
  rw [Py.replaceChar_eq_self
    (fun c hc => (renderCalls_no_special hwf c hc).2.2.2.1)]
  rw [Py.splitKeep_not_mem
    (fun hmem => (renderCalls_no_special hwf ' ' hmem).1 rfl)]
  rw [List.map_cons, List.map_nil]
  rw [Py.splitKeep_not_mem
    (fun hmem => (renderCalls_no_special hwf ';' hmem).2.2.2.2 rfl)]
  rw [List.map_cons, List.map_nil]
  rw [psfc_renderCalls c0 c1 rest hwf]
  simp

end LL

/-! ## Claim C3 — purity of condition-only rungs ending in OTE -/

/-- C3 (amended): a juxtaposed rung of condition calls ending in
`OTE(y)` translates, for sufficient loop fuel, to exactly the guarded
block `IF (<AND-join of the condition translations>) THEN\n\t y := 1;\n
ELSE\n\t y := 0;\nEND_IF;\n` — the guard is the exact boolean
translation of the conditions, but the block assigns `y` twice (a set
and a reset), not exactly once. -/
theorem claim_C3_amended
    (cs : List (Str × List Str)) (y : Str) (fuel : Nat)
    (hcs : cs ≠ []) (hok : ∀ c ∈ cs, LL.CondOk c)
    (hy : y ≠ []) (hypl : ∀ ch ∈ y, LL.plainChar ch = true)
    (hfuel : cs.length + 1 < fuel) :
    LL.translate_ladder_to_st fuel (LL.rungText cs y) =
      some (S "IF (" ++
        Py.join (S " AND ") (cs.map (fun c => LL.condImpl c.1 c.2)) ++
        S ") THEN\n\t" ++ y ++
        S " := 1;\nELSE\n\t" ++ y ++ S " := 0;\nEND_IF;\n") := by
  have hwfcalls : ∀ c ∈ (cs.map (fun c => (c.1, Py.join (S ",") c.2))) ++
      [(S "OTE", y)], LL.NameOk c.1 ∧ LL.InnerOk c.2 := by
    intro c hc
    rcases List.mem_append.mp hc with hc1 | hc2
    · obtain ⟨d, hd, rfl⟩ := List.mem_map.mp hc1
      obtain ⟨hdm, hdne, hdps⟩ := hok d hd
      exact ⟨LL.nameOk_of_mem_cond hdm, LL.innerOk_join_comma hdne hdps⟩
    · rw [List.mem_singleton] at hc2
      subst hc2
      exact ⟨show LL.NameOk (S "OTE") from ⟨by decide, by decide⟩, hy,
        fun ch hch => Or.inl (hypl ch hch)⟩
  have hshape : ∃ c0 c1 rest,
      (cs.map (fun c => (c.1, Py.join (S ",") c.2))) ++ [(S "OTE", y)] =
        c0 :: c1 :: rest := by
    obtain _ | ⟨d0, cs2⟩ := cs
    · exact absurd rfl hcs
    · cases cs2 with
      | nil =>
        exact ⟨(d0.1, Py.join (S ",") d0.2), (S "OTE", y), [], rfl⟩
      | cons d1 cs3 =>
        exact ⟨(d0.1, Py.join (S ",") d0.2), (d1.1, Py.join (S ",") d1.2),
          (d1 :: cs3).tail.map (fun c => (c.1, Py.join (S ",") c.2)) ++
            [(S "OTE", y)], rfl⟩
  obtain ⟨c0, c1, rest, hsh⟩ := hshape
  have hlen : (c0 :: c1 :: rest).length < fuel := by
    rw [← hsh]
    simp
    omega
  rw [show LL.rungText cs y = LL.renderCalls
    ((cs.map (fun c => (c.1, Py.join (S ",") c.2))) ++ [(S "OTE", y)])
    from rfl]
  unfold LL.translate_ladder_to_st LL.process_rung
  rw [hsh] at hwfcalls ⊢
  rw [LL.format_renderCalls (c0 :: c1 :: rest) fuel (by simp) hlen hwfcalls]
  rw [Option.map_some']
  rw [LL.pri_renderCalls c0 c1 rest hwfcalls,
    LL.psfc_renderCalls c0 c1 rest hwfcalls]
  rw [← hsh]
  rw [List.map_append]
  have hmkC : (cs.map (fun c => (c.1, Py.join (S ",") c.2))).map
      (fun np => LL.mkLLFunc np.1 np.2) =
      cs.map (fun c => (⟨c.1, c.2⟩ : LL.LLFunc)) := by
    rw [List.map_map]
    refine List.map_congr_left ?_
    intro c hc
    obtain ⟨hdm, hdne, hdps⟩ := hok c hc
    simp only [Function.comp_apply]
    exact LL.mkLLFunc_join c.1 c.2 hdne hdps
  rw [hmkC]
  rw [show ([(S "OTE", y)].map (fun np => LL.mkLLFunc np.1 np.2)) =
    [LL.mkLLFunc (S "OTE") y] from rfl]
  rw [LL.mkLLFunc_single (S "OTE") y hy hypl]
  rw [LL.pil_single]
  rw [List.foldl_append]
  have hcondAll : ∀ f ∈ cs.map (fun c => (⟨c.1, c.2⟩ : LL.LLFunc)),
      LL.LLFunc.conditional f = true := by
    intro f hf
    obtain ⟨c, hc, rfl⟩ := List.mem_map.mp hf
    exact LL.conditional_of_mem c.2 (hok c hc).1
  rw [LL.foldl_procF_conds (cs.map (fun c => (⟨c.1, c.2⟩ : LL.LLFunc)))
    ⟨[], [], []⟩ hcondAll]
  rw [List.foldl_cons, List.foldl_nil]
  rw [show (⟨([] : Str), ([] : Str),
    ([] : List LL.LLFunc) ++ cs.map (fun c => (⟨c.1, c.2⟩ : LL.LLFunc))⟩ :
      LL.EmitSt) =
    ⟨[], [], cs.map (fun c => (⟨c.1, c.2⟩ : LL.LLFunc))⟩ from by simp]
  rw [LL.procF_ote [] (cs.map (fun c => (⟨c.1, c.2⟩ : LL.LLFunc))) y
    (by simpa using hcs)]
  rw [LL.innerGuard_conds cs (fun c hc => (hok c hc).1)]
  simp


/-- C3 (counterexample): on the condition-only rung
`XIC(Start)OTE(Run)` the emitted ST assigns the output tag `Run` twice,
not exactly once: the guarded `IF` block sets `Run := 1;` in its `THEN`
arm and resets `Run := 0;` in the `ELSE` arm that
`process_instruction_list` adds for `OTE`. -/
theorem claim_C3_counterexample :
    LL.translate_ladder_to_st 10 (S "XIC(Start)OTE(Run)") =
      some (S "IF (((Start = 1))) THEN\n\tRun := 1;\nELSE\n\tRun := 0;\nEND_IF;\n") ∧
    (S "Run := 1;") <:+:
      (S "IF (((Start = 1))) THEN\n\tRun := 1;\nELSE\n\tRun := 0;\nEND_IF;\n") ∧
    (S "Run := 0;") <:+:
      (S "IF (((Start = 1))) THEN\n\tRun := 1;\nELSE\n\tRun := 0;\nEND_IF;\n") := by
  refine ⟨by decide, by decide, by decide⟩

/-- C3 (witness): the amended statement applied to the rung
`XIC(Start)XIO(Stop)OTE(Run)` with fuel 10. -/
theorem claim_C3_witness :
    LL.translate_ladder_to_st 10
      (LL.rungText [(S "XIC", [S "Start"]), (S "XIO", [S "Stop"])] (S "Run")) =
      some (S "IF (" ++
        Py.join (S " AND ")
          ([(S "XIC", [S "Start"]), (S "XIO", [S "Stop"])].map
            (fun c => LL.condImpl c.1 c.2)) ++
        S ") THEN\n\t" ++ S "Run" ++
        S " := 1;\nELSE\n\t" ++ S "Run" ++ S " := 0;\nEND_IF;\n") :=
  claim_C3_amended [(S "XIC", [S "Start"]), (S "XIO", [S "Stop"])]
    (S "Run") 10 (by decide)
    (by intro c hc; fin_cases hc <;> exact ⟨by decide, by decide, by decide⟩)
    (by decide) (by decide) (by decide)
